import Mathlib

/-!
Verification of the `RowContainer` row store (velox/exec/RowContainer.cpp).

This file gives a shallow embedding of the data model and the operations of
the row container: the row-layout computation performed by the constructor,
the row lifecycle (newRow / initializeRow / eraseRows / createRowPartitions),
whole-row serialization (extractSerializedRows / storeSerializedRow),
column hashing (hash / hashTyped), and the iteration machinery
(skip / listPartitionRows), together with theorems settling the spec's
claims about them.

Machine integers are modelled as `Nat` (all the quantities involved are
non-negative and no arithmetic here overflows 32/64 bits on the inputs the
theorems quantify over); fatal VELOX_CHECK / VELOX_DCHECK failures are
modelled as `Except` errors; pointers are modelled as indices.
-/

namespace Velox

/-! ### Small arithmetic helpers used throughout the source

`bits::roundUp(value, factor)` (velox bits, factor a power of two in all
uses here), `bits::nbytes`, and `bits::lowMask`. -/

/-- bits::roundUp: round `value` up to a multiple of `factor`.
The source computes this with two's-complement masking for power-of-two
factors; for non-negative values that equals the division form used here. -/
def roundUp (value factor : Nat) : Nat := (value + factor - 1) / factor * factor

/-- bits::nbytes: number of bytes needed to hold `bits` bits. -/
def nbytes (bits : Nat) : Nat := (bits + 7) / 8

/-- bits::lowMask(n) = a mask with the low `n` bits set. -/
def lowMask (n : Nat) : Nat := 2 ^ n - 1

/-- sizeof(void*) on the 64-bit targets the container is written for. -/
def pointerSize : Nat := 8

/-! ### Row layout (RowContainer constructor, RowContainer.cpp:131-262) -/

/-- The per-type data the layout computation consumes: `typeKindSize(kind)`
and `Type::isFixedWidth()`. -/
structure TypeDesc where
  size : Nat
  isFixedWidth : Bool
deriving DecidableEq

/-- The accumulator descriptor fields read by the constructor. -/
structure Accumulator where
  isFixedSize : Bool
  fixedWidthSize : Nat
  usesExternalMemory : Bool
  alignment : Nat
deriving DecidableEq

/-- RowContainer constructor arguments that determine the layout. -/
structure LayoutConfig where
  keyTypes : List TypeDesc
  nullableKeys : Bool
  accumulators : List Accumulator
  dependentTypes : List TypeDesc
  hasNext : Bool
  hasProbedFlag : Bool
  hasNormalizedKeys : Bool
deriving DecidableEq

/-- RowContainer::kNumAccumulatorFlags: a null bit and an initialized bit. -/
def kNumAccumulatorFlags : Nat := 2

/-- RowContainer::combineAlignments (the source additionally checks both
arguments are powers of two; the claims proved here do not involve that
failure path). -/
def combineAlignments (a b : Nat) : Nat := max a b

/-- Mutable state threaded through the constructor's layout loops:
`offset`, `flagOffset`, and the vectors / flags they build. -/
structure LoopSt where
  offset : Nat
  flagOffset : Nat
  offsets : List Nat
  nullOffsets : List Nat
  isVariableWidth : Bool
  alignment : Nat
  usesExternalMemory : Bool
deriving DecidableEq

/-- Key loop body (RowContainer.cpp:179-189): record the value offset,
advance it by the type's size, record the null-flag offset, and advance the
flag cursor only for nullable keys. -/
def keyStep (nullableKeys : Bool) (st : LoopSt) (t : TypeDesc) : LoopSt :=
  { st with
    offsets := st.offsets ++ [st.offset]
    offset := st.offset + t.size
    nullOffsets := st.nullOffsets ++ [st.flagOffset]
    isVariableWidth := st.isVariableWidth || !t.isFixedWidth
    flagOffset := st.flagOffset + (if nullableKeys then 1 else 0) }

/-- Accumulator flag loop body (RowContainer.cpp:200-208): record the null
bit, advance by two bits (null + initialized), fold in width/alignment. -/
def accFlagStep (st : LoopSt) (a : Accumulator) : LoopSt :=
  { st with
    nullOffsets := st.nullOffsets ++ [st.flagOffset]
    flagOffset := st.flagOffset + kNumAccumulatorFlags
    isVariableWidth := st.isVariableWidth || !a.isFixedSize
    usesExternalMemory := st.usesExternalMemory || a.usesExternalMemory
    alignment := combineAlignments a.alignment st.alignment }

/-- Dependent-type flag loop body (RowContainer.cpp:209-215). -/
def depFlagStep (st : LoopSt) (t : TypeDesc) : LoopSt :=
  { st with
    nullOffsets := st.nullOffsets ++ [st.flagOffset]
    flagOffset := st.flagOffset + 1
    isVariableWidth := st.isVariableWidth || !t.isFixedWidth }

/-- Accumulator payload loop body (RowContainer.cpp:230-235): align the
cursor to the accumulator's alignment, record it, advance by its width. -/
def accPayloadStep (st : LoopSt) (a : Accumulator) : LoopSt :=
  let o := roundUp st.offset a.alignment
  { st with offsets := st.offsets ++ [o], offset := o + a.fixedWidthSize }

/-- Dependent payload loop body (RowContainer.cpp:236-239). -/
def depPayloadStep (st : LoopSt) (t : TypeDesc) : LoopSt :=
  { st with offsets := st.offsets ++ [st.offset], offset := st.offset + t.size }

/-- The layout the constructor computes.  As in the source, a zero
`rowSizeOffset` / `nextOffset` means the field is absent (a real offset is
always ≥ sizeof(void*) > 0). -/
structure Layout where
  offsets : List Nat
  nullOffsets : List Nat
  flagBytes : Nat
  probedFlagOffset : Nat
  freeFlagOffset : Nat
  rowSizeOffset : Nat
  nextOffset : Nat
  fixedRowSize : Nat
  alignment : Nat
  firstAggregateOffset : Nat
  isVariableWidth : Bool
  originalNormalizedKeySize : Nat
deriving DecidableEq

/-- The layout computation of the RowContainer constructor
(RowContainer.cpp:176-262), phase by phase.  The initial container
alignment is modelled from the spec as pointer alignment ("the max of
pointer size and all accumulator alignments", the member's initializer
being in the header, which is not part of the analysed sources). -/
def computeLayout (cfg : LayoutConfig) : Layout :=
  let st0 : LoopSt :=
    { offset := 0, flagOffset := 0, offsets := [], nullOffsets := []
      isVariableWidth := false, alignment := pointerSize
      usesExternalMemory := false }
  let st1 := cfg.keyTypes.foldl (keyStep cfg.nullableKeys) st0
  -- Make offset at least sizeof pointer (free-list next pointer slot).
  let offset2 := max st1.offset pointerSize
  let firstAggregateOffset := offset2
  -- Move flagOffset to the start of the next byte when accumulators exist,
  -- so an accumulator's null and initialized bits share a byte
  -- (the source writes `(flagOffset + 7) & -8`).
  let flagOffset2 :=
    if cfg.accumulators.isEmpty then st1.flagOffset
    else (st1.flagOffset + 7) / 8 * 8
  let st2 := cfg.accumulators.foldl accFlagStep
    { st1 with offset := offset2, flagOffset := flagOffset2 }
  let st3 := cfg.dependentTypes.foldl depFlagStep st2
  let probedFlagOffset :=
    if cfg.hasProbedFlag then st3.flagOffset + firstAggregateOffset * 8 else 0
  let flagOffset4 := st3.flagOffset + (if cfg.hasProbedFlag then 1 else 0)
  let freeFlagOffset := flagOffset4 + firstAggregateOffset * 8
  let flagOffset5 := flagOffset4 + 1
  let flagBytes := nbytes flagOffset5
  -- Fixup null offsets to be bit numbers from the start of the row.
  let nullOffsets := st3.nullOffsets.map (· + firstAggregateOffset * 8)
  let offset5 := st3.offset + flagBytes
  let st6 := cfg.accumulators.foldl accPayloadStep { st3 with offset := offset5 }
  let st7 := cfg.dependentTypes.foldl depPayloadStep st6
  let rowSizeOffset := if st7.isVariableWidth then st7.offset else 0
  let offset8 := st7.offset + (if st7.isVariableWidth then 4 else 0)
  let nextOffset := if cfg.hasNext then offset8 else 0
  let offset9 := offset8 + (if cfg.hasNext then pointerSize else 0)
  let fixedRowSize := roundUp offset9 st7.alignment
  { offsets := st7.offsets
    nullOffsets := nullOffsets
    flagBytes := flagBytes
    probedFlagOffset := probedFlagOffset
    freeFlagOffset := freeFlagOffset
    rowSizeOffset := rowSizeOffset
    nextOffset := nextOffset
    fixedRowSize := fixedRowSize
    alignment := st7.alignment
    firstAggregateOffset := firstAggregateOffset
    isVariableWidth := st7.isVariableWidth
    originalNormalizedKeySize :=
      if cfg.hasNormalizedKeys then roundUp pointerSize st7.alignment else 0 }

/-! Closed forms for the layout loops, used by the layout theorems. -/

theorem foldl_nullOffsets_getElem {α : Type} (step : LoopSt → α → LoopSt)
    (hstep : ∀ st x, ∃ t, (step st x).nullOffsets = st.nullOffsets ++ t)
    (xs : List α) (st : LoopSt) (i : Nat) (hi : i < st.nullOffsets.length) :
    ((xs.foldl step st).nullOffsets)[i]? = st.nullOffsets[i]? := by
  induction xs generalizing st with
  | nil => rfl
  | cons x xs ih =>
      rw [List.foldl_cons]
      obtain ⟨t, ht⟩ := hstep st x
      rw [ih _ (by rw [ht, List.length_append]; omega), ht,
        List.getElem?_append_left hi]

theorem foldl_nullOffsets_length {α : Type} (step : LoopSt → α → LoopSt)
    (hstep : ∀ st x, ∃ a, (step st x).nullOffsets = st.nullOffsets ++ [a])
    (xs : List α) (st : LoopSt) :
    (xs.foldl step st).nullOffsets.length = st.nullOffsets.length + xs.length := by
  induction xs generalizing st with
  | nil => simp
  | cons x xs ih =>
      rw [List.foldl_cons, ih]
      obtain ⟨a, ha⟩ := hstep st x
      rw [ha]
      simp
      omega

theorem accFlagStep_appends (st : LoopSt) (a : Accumulator) :
    (accFlagStep st a).nullOffsets = st.nullOffsets ++ [st.flagOffset] := rfl

theorem depFlagStep_appends (st : LoopSt) (t : TypeDesc) :
    (depFlagStep st t).nullOffsets = st.nullOffsets ++ [st.flagOffset] := rfl

theorem keyStep_appends (nk : Bool) (st : LoopSt) (t : TypeDesc) :
    (keyStep nk st t).nullOffsets = st.nullOffsets ++ [st.flagOffset] := rfl

/-- The accumulator-flag loop records null-bit index
`st.flagOffset + 2 * j` for the `j`-th accumulator. -/
theorem accFold_nullOffsets_getElem (as : List Accumulator) (st : LoopSt)
    (j : Nat) (hj : j < as.length) :
    (as.foldl accFlagStep st).nullOffsets[st.nullOffsets.length + j]? =
      some (st.flagOffset + 2 * j) := by
  induction as generalizing st j with
  | nil => exact absurd hj (by simp)
  | cons a as ih =>
      rw [List.foldl_cons]
      cases j with
      | zero =>
          rw [foldl_nullOffsets_getElem accFlagStep
            (fun st x => ⟨[st.flagOffset], rfl⟩) as _ _
            (by rw [accFlagStep_appends, List.length_append]; simp),
            accFlagStep_appends,
            List.getElem?_append_right (Nat.le_of_eq (by omega))]
          simp
      | succ j' =>
          have hidx : st.nullOffsets.length + (j' + 1) =
              (accFlagStep st a).nullOffsets.length + j' := by
            simp [accFlagStep_appends]
            omega
          rw [hidx, ih (accFlagStep st a) j' (by simp at hj; omega)]
          simp only [accFlagStep, kNumAccumulatorFlags]
          congr 1
          omega

/-- The accumulator segment of `computeLayout`'s null offsets: entry
`keyTypes.length + j` equals `8 * c + 2 * j` for some byte count `c`
(rounded flag cursor plus the whole-byte rebase). -/
theorem computeLayout_acc_nullOffset (cfg : LayoutConfig)
    (hne : cfg.accumulators ≠ []) (j : Nat) (hj : j < cfg.accumulators.length) :
    ∃ c, (computeLayout cfg).nullOffsets.getD (cfg.keyTypes.length + j) 0 =
      8 * c + 2 * j := by
  have hkeystep : ∀ (st : LoopSt) (x : TypeDesc), ∃ a,
      (keyStep cfg.nullableKeys st x).nullOffsets = st.nullOffsets ++ [a] :=
    fun st x => ⟨st.flagOffset, rfl⟩
  simp only [computeLayout]
  have hem : cfg.accumulators.isEmpty = false := by
    cases h : cfg.accumulators with
    | nil => exact absurd h hne
    | cons a as => rfl
  rw [if_neg (by rw [hem]; exact Bool.false_ne_true)]
  set st0 : LoopSt :=
    { offset := 0, flagOffset := 0, offsets := [], nullOffsets := []
      isVariableWidth := false, alignment := pointerSize
      usesExternalMemory := false } with hst0
  set st1 := cfg.keyTypes.foldl (keyStep cfg.nullableKeys) st0 with hst1
  set F := (st1.flagOffset + 7) / 8 * 8 with hF
  set A := max st1.offset pointerSize with hA
  set st1' : LoopSt := { st1 with offset := A, flagOffset := F } with hst1'
  set st2 := cfg.accumulators.foldl accFlagStep st1' with hst2
  set st3 := cfg.dependentTypes.foldl depFlagStep st2 with hst3
  have hkeylen : st1.nullOffsets.length = cfg.keyTypes.length := by
    rw [hst1, foldl_nullOffsets_length _ hkeystep]
    simp [hst0]
  have h1'len : st1'.nullOffsets.length = cfg.keyTypes.length := hkeylen
  have haccq : st2.nullOffsets[cfg.keyTypes.length + j]? =
      some (F + 2 * j) := by
    rw [hst2, ← h1'len, accFold_nullOffsets_getElem _ _ _ hj]
  have h2len : st2.nullOffsets.length =
      cfg.keyTypes.length + cfg.accumulators.length := by
    rw [hst2, foldl_nullOffsets_length accFlagStep
      (fun st x => ⟨st.flagOffset, rfl⟩), h1'len]
  have hdep : st3.nullOffsets[cfg.keyTypes.length + j]? =
      some (F + 2 * j) := by
    rw [hst3, foldl_nullOffsets_getElem depFlagStep
      (fun st x => ⟨[st.flagOffset], rfl⟩) _ _ _ (by omega), haccq]
  refine ⟨(st1.flagOffset + 7) / 8 + A, ?_⟩
  rw [List.getD_eq_getElem?_getD, List.getElem?_map, hdep]
  simp only [Option.map_some', Option.getD_some]
  omega

/-- C7: in every configuration with at least one accumulator, each
accumulator's null bit and the following initialized bit land in the same
byte of the row: the flag-bit cursor is rounded up to a byte boundary
before the first accumulator's flags are assigned, each accumulator takes
two bits, and the final rebase adds a whole number of bytes, so the null
bit's index is even within its byte and bit indices b and b+1 share
byte b / 8. -/
theorem accumulator_flags_share_byte (cfg : LayoutConfig)
    (hne : cfg.accumulators ≠ []) (j : Nat) (hj : j < cfg.accumulators.length) :
    ((computeLayout cfg).nullOffsets.getD (cfg.keyTypes.length + j) 0) / 8 =
      (((computeLayout cfg).nullOffsets.getD (cfg.keyTypes.length + j) 0) + 1) / 8 := by
  obtain ⟨c, hc⟩ := computeLayout_acc_nullOffset cfg hne j hj
  rw [hc]
  omega

/-- A small concrete configuration: one nullable int64 key, one accumulator
of width 8, one dependent int32 column. -/
def cfg7 : LayoutConfig :=
  { keyTypes := [{ size := 8, isFixedWidth := true }]
    nullableKeys := true
    accumulators := [{ isFixedSize := true, fixedWidthSize := 8,
                       usesExternalMemory := false, alignment := 8 }]
    dependentTypes := [{ size := 4, isFixedWidth := true }]
    hasNext := false, hasProbedFlag := false, hasNormalizedKeys := false }

/-- Witness for C7 at the concrete configuration `cfg7`. -/
theorem accumulator_flags_share_byte_witness :
    cfg7.accumulators ≠ [] ∧ 0 < cfg7.accumulators.length ∧
    ((computeLayout cfg7).nullOffsets.getD (cfg7.keyTypes.length + 0) 0) / 8 =
      (((computeLayout cfg7).nullOffsets.getD (cfg7.keyTypes.length + 0) 0) + 1) / 8 :=
  ⟨by decide, by decide,
    accumulator_flags_share_byte cfg7 (by decide) 0 (by decide)⟩

/-! ### Row lifecycle (RowContainer.cpp:268-349, 1094-1100)

Rows are modelled as slots in allocation order; a "row pointer" is the
slot's index.  Each slot carries the bits the lifecycle operations touch:
the free bit, the first pointer slot (which aliases the free-list next
pointer for freed rows), the null/initialized flag block, the
variable-row-size counter, and the variable-width column views (as ids of
StringHeap blocks).  Fatal VELOX_CHECK / VELOX_DCHECK failures are
`Except.error`. -/

/-- The per-row state touched by the lifecycle operations. -/
structure LRow where
  freeBit : Bool
  nextFreePtr : Option Nat
  flagBits : List Bool
  varSizeCounter : Nat
  varViews : List (Option Nat)
deriving DecidableEq

instance : Inhabited LRow :=
  ⟨{ freeBit := false, nextFreePtr := none, flagBits := [],
     varSizeCounter := 0, varViews := [] }⟩

/-- Container state for the lifecycle operations.  `rowSizeOffset` and
`nextOffset` use the source's encoding (0 = absent).  `heap` is the set of
live StringHeap block ids; `destroyedAcc` records the rows whose
accumulators have been destroyed (the destroy hook is an external
callback, so only its invocation is observable here). -/
structure Container where
  rows : List LRow
  firstFreeRow : Option Nat
  numRows : Nat
  numFreeRows : Nat
  isMutable : Bool
  heap : List Nat
  destroyedAcc : List Nat
  rowSizeOffset : Nat
  nextOffset : Nat
  numFlagBits : Nat
deriving DecidableEq

/-- Fatal check failures (VELOX_CHECK / VELOX_DCHECK). -/
inductive Err where
  | programmingError (msg : String)
deriving DecidableEq

def Container.getRow (c : Container) (r : Nat) : LRow := c.rows.getD r default

def Container.setRow (c : Container) (r : Nat) (row : LRow) : Container :=
  { c with rows := c.rows.set r row }

/-- StringHeap block ids referenced by a row's variable-width columns. -/
def freedBlocksOf (row : LRow) : List Nat := row.varViews.filterMap id

/-- RowContainer::freeVariableWidthFields (RowContainer.cpp:394-411): return
every variable-width payload of the given rows to the StringHeap. -/
def Container.freeVariableWidthFields (c : Container) (rs : List Nat) : Container :=
  { c with
    heap := c.heap.filter
      (fun b => decide (∀ r ∈ rs, b ∉ freedBlocksOf (c.getRow r))) }

/-- RowContainer::freeAggregates (RowContainer.cpp:413-417): invoke each
accumulator's destroy hook on the batch. -/
def Container.freeAggregates (c : Container) (rs : List Nat) : Container :=
  { c with destroyedAcc := c.destroyedAcc ++ rs }

/-- RowContainer::freeRowsExtraMemory (RowContainer.cpp:419-423). -/
def Container.freeRowsExtraMemory (c : Container) (rs : List Nat) : Container :=
  let c := c.freeVariableWidthFields rs
  let c := c.freeAggregates rs
  { c with numRows := c.numRows - rs.length }

/-- `memset(row, 0, fixedRowSize_)`: every field the model tracks becomes
zero; the flag block and view list keep their sizes. -/
def memsetZero (row : LRow) : LRow :=
  { freeBit := false
    nextFreePtr := none
    flagBits := row.flagBits.map (fun _ => false)
    varSizeCounter := 0
    varViews := row.varViews.map (fun _ => none) }

/-- The unconditional tail of RowContainer::initializeRow
(RowContainer.cpp:308-317): zero the null/initialized flag block (when the
container has any such bits), zero the variable-row-size counter (when
present), clear the free bit. -/
def finishInit (c : Container) (r : Nat) (c1 : Container) : Container :=
  let row := c1.getRow r
  let row :=
    if c.numFlagBits ≠ 0 then
      { row with flagBits := List.replicate c.numFlagBits false }
    else row
  let row :=
    if c.rowSizeOffset ≠ 0 then { row with varSizeCounter := 0 } else row
  let row := { row with freeBit := false }
  c1.setRow r row

/-- RowContainer::initializeRow (RowContainer.cpp:297-318).  With
`reuse = true` the row's variable-width payloads are freed and its
accumulators destroyed first, then `VELOX_CHECK_EQ(nextOffset_, 0)`;
with `reuse = false` the fixed-width area is zeroed whenever the container
has a variable-row-size counter.  Then the flag block is zeroed, the
variable-row-size counter (when present) is zeroed, and the free bit is
cleared. -/
def Container.initializeRow (c : Container) (r : Nat) (reuse : Bool) :
    Except Err Container :=
  let step1 : Except Err Container :=
    if reuse then
      let c1 := (c.freeVariableWidthFields [r]).freeAggregates [r]
      if c.nextOffset = 0 then .ok c1
      else .error (.programmingError "initializeRow with reuse requires nextOffset == 0")
    else if c.rowSizeOffset ≠ 0 then .ok (c.setRow r (memsetZero (c.getRow r)))
    else .ok c
  match step1 with
  | .error e => .error e
  | .ok c1 => .ok (finishInit c r c1)

/-- A freshly bump-allocated slot (uninitialized arena memory; the model
uses zeroed junk, and `initializeRow` is what establishes the row's
invariants, as in the source). -/
def freshRow (numFlagBits numVarCols : Nat) : LRow :=
  { freeBit := false, nextFreePtr := none
    flagBits := List.replicate numFlagBits false
    varSizeCounter := 0
    varViews := List.replicate numVarCols none }

/-- RowContainer::newRow (RowContainer.cpp:268-285): reject on an immutable
container (VELOX_DCHECK(mutable_)), pop the free list if non-empty
(checking the popped row's free bit), otherwise bump-allocate, then
initialize.  Returns the new row's slot index. -/
def Container.newRow (c : Container) (numVarCols : Nat := 0) :
    Except Err (Container × Nat) :=
  if !c.isMutable then
    .error (.programmingError "Can't add row into an immutable row container")
  else
    let c := { c with numRows := c.numRows + 1 }
    match c.firstFreeRow with
    | some r =>
        if !(c.getRow r).freeBit then
          .error (.programmingError "free bit must be set on a free-list row")
        else
          let c := { c with
            firstFreeRow := (c.getRow r).nextFreePtr
            numFreeRows := c.numFreeRows - 1 }
          (c.initializeRow r false).map (fun c' => (c', r))
    | none =>
        let r := c.rows.length
        let c := { c with rows := c.rows ++ [freshRow c.numFlagBits numVarCols] }
        (c.initializeRow r false).map (fun c' => (c', r))

/-- The per-row loop of RowContainer::eraseRows (RowContainer.cpp:340-347):
check the free bit was clear ("Double free of row"), set it, and push the
row onto the free list. -/
def Container.eraseRowsLoop : Container → List Nat → Except Err Container
  | c, [] => .ok c
  | c, r :: rs =>
      if (c.getRow r).freeBit then .error (.programmingError "Double free of row")
      else
        let row := c.getRow r
        let row := { row with freeBit := true, nextFreePtr := c.firstFreeRow }
        let c := { c.setRow r row with firstFreeRow := some r }
        eraseRowsLoop c rs

/-- RowContainer::eraseRows (RowContainer.cpp:338-349).  Column statistics
are not modelled (no claim quantifies them). -/
def Container.eraseRows (c : Container) (rs : List Nat) : Except Err Container :=
  let c1 := c.freeRowsExtraMemory rs
  (c1.eraseRowsLoop rs).map (fun c2 => { c2 with numFreeRows := c2.numFreeRows + rs.length })

/-- RowContainer::createRowPartitions (RowContainer.cpp:1094-1100): requires
the container to still be mutable, flips the flag, and builds a
RowPartitions sized `numRows_` (returned here as the size). -/
def Container.createRowPartitions (c : Container) : Except Err (Container × Nat) :=
  if !c.isMutable then
    .error (.programmingError "Can only create RowPartitions once from a row container")
  else .ok ({ c with isMutable := false }, c.numRows)

/-- The mutability check at the top of RowContainer::listPartitionRows
(RowContainer.cpp:1108-1109); the scan itself is modelled in the iteration
section below. -/
def Container.listPartitionRowsCheck (c : Container) : Except Err Unit :=
  if c.isMutable then
    .error (.programmingError "Can't list partition rows from a mutable row container")
  else .ok ()

/-! Helper lemmas about `getRow` / `setRow`. -/

theorem Container.getRow_setRow_self (c : Container) (r : Nat) (row : LRow)
    (hr : r < c.rows.length) : (c.setRow r row).getRow r = row := by
  simp [Container.getRow, Container.setRow, List.getD_eq_getElem?_getD,
    List.getElem?_set_self hr]

theorem Container.getRow_setRow_ne (c : Container) (r r' : Nat) (row : LRow)
    (h : r ≠ r') : (c.setRow r row).getRow r' = c.getRow r' := by
  simp [Container.getRow, Container.setRow, List.getD_eq_getElem?_getD,
    List.getElem?_set_ne h]

theorem initializeRow_false_ok (c : Container) (r : Nat) :
    ∃ c', c.initializeRow r false = .ok c' := by
  unfold Container.initializeRow
  by_cases h : c.rowSizeOffset ≠ 0 <;> simp [h]

theorem finishInit_heap (c : Container) (r : Nat) (c1 : Container) :
    (finishInit c r c1).heap = c1.heap := rfl

theorem finishInit_destroyedAcc (c : Container) (r : Nat) (c1 : Container) :
    (finishInit c r c1).destroyedAcc = c1.destroyedAcc := rfl

theorem finishInit_getRow (c : Container) (r : Nat) (c1 : Container)
    (hr : r < c1.rows.length) :
    ((finishInit c r c1).getRow r).freeBit = false ∧
    (c.numFlagBits ≠ 0 →
      ((finishInit c r c1).getRow r).flagBits = List.replicate c.numFlagBits false) ∧
    (c.rowSizeOffset ≠ 0 → ((finishInit c r c1).getRow r).varSizeCounter = 0) := by
  unfold finishInit
  rw [Container.getRow_setRow_self _ _ _ hr]
  refine ⟨rfl, ?_, ?_⟩
  · intro h
    simp only [h, ne_eq, not_false_eq_true, if_true]
    by_cases h2 : c.rowSizeOffset ≠ 0 <;> simp [h2]
  · intro h2
    simp [h2]

/-- C5: sealing via createRowPartitions is a one-way transition: on a
mutable container it succeeds and flips the mutable flag to false; on the
sealed result a second createRowPartitions is an error, and every newRow
is rejected; and before sealing, listPartitionRows is rejected. -/
theorem createRowPartitions_one_way (c : Container) (hm : c.isMutable = true) :
    c.createRowPartitions = .ok ({ c with isMutable := false }, c.numRows) ∧
    ({ c with isMutable := false } : Container).isMutable = false ∧
    (∃ e, ({ c with isMutable := false } : Container).createRowPartitions = .error e) ∧
    (∀ n, ∃ e, ({ c with isMutable := false } : Container).newRow n = .error e) ∧
    (∃ e, c.listPartitionRowsCheck = .error e) := by
  have h1 : c.createRowPartitions = .ok ({ c with isMutable := false }, c.numRows) := by
    unfold Container.createRowPartitions
    rw [hm]
    rfl
  refine ⟨h1, rfl,
    ⟨Err.programmingError "Can only create RowPartitions once from a row container", rfl⟩,
    fun n => ⟨Err.programmingError "Can't add row into an immutable row container", rfl⟩,
    ⟨Err.programmingError "Can't list partition rows from a mutable row container", ?_⟩⟩
  unfold Container.listPartitionRowsCheck
  rw [hm]
  rfl

/-- A concrete mutable container with four live rows and no variable-width
columns (the state reached by four `newRow` calls on a fresh container of
two nullable fixed-width keys). -/
def cFour : Container :=
  { rows := List.replicate 4 default, firstFreeRow := none, numRows := 4,
    numFreeRows := 0, isMutable := true, heap := [], destroyedAcc := [],
    rowSizeOffset := 0, nextOffset := 0, numFlagBits := 2 }

/-- Witness for C5 at the concrete container `cFour`. -/
theorem createRowPartitions_one_way_witness :
    cFour.isMutable = true ∧
    (cFour.createRowPartitions = .ok ({ cFour with isMutable := false }, cFour.numRows) ∧
     ({ cFour with isMutable := false } : Container).isMutable = false ∧
     (∃ e, ({ cFour with isMutable := false } : Container).createRowPartitions = .error e) ∧
     (∀ n, ∃ e, ({ cFour with isMutable := false } : Container).newRow n = .error e) ∧
     (∃ e, cFour.listPartitionRowsCheck = .error e)) :=
  ⟨rfl, createRowPartitions_one_way cFour rfl⟩

/-- C10: initializeRow with reuse = true frees the row's variable-width
payloads and destroys its accumulators using the row's pre-zeroing
contents, requires `nextOffset_ == 0` (so in-place recycling is a fatal
error on containers with next-row chaining), and afterwards the
null/initialized flag bits are all zero, the variable-row-size counter
(when present) is zero, and the free bit is clear. -/
theorem initializeRow_reuse_spec (c : Container) (r : Nat)
    (hr : r < c.rows.length) :
    (c.nextOffset ≠ 0 → ∃ e, c.initializeRow r true = .error e) ∧
    (c.nextOffset = 0 →
      ∃ c', c.initializeRow r true = .ok c' ∧
        c'.heap = c.heap.filter (fun b => decide (b ∉ freedBlocksOf (c.getRow r))) ∧
        c'.destroyedAcc = c.destroyedAcc ++ [r] ∧
        (∀ i, i < c.numFlagBits → (c'.getRow r).flagBits.getD i true = false) ∧
        (c.rowSizeOffset ≠ 0 → (c'.getRow r).varSizeCounter = 0) ∧
        (c'.getRow r).freeBit = false) := by
  constructor
  · intro hno
    refine ⟨Err.programmingError "initializeRow with reuse requires nextOffset == 0", ?_⟩
    unfold Container.initializeRow
    simp [hno]
  · intro hno
    set c1 : Container := (c.freeVariableWidthFields [r]).freeAggregates [r] with hc1
    have hc1rows : c1.rows = c.rows := rfl
    have hok : c.initializeRow r true = .ok (finishInit c r c1) := by
      unfold Container.initializeRow
      simp [hno]
    obtain ⟨hfb, hflags, hvs⟩ := finishInit_getRow c r c1 (by rw [hc1rows]; exact hr)
    refine ⟨finishInit c r c1, hok, ?_, rfl, ?_, hvs, hfb⟩
    · rw [finishInit_heap]
      show (c.heap.filter _) = _
      apply List.filter_congr
      intro b _
      simp
    · intro i hi
      have hn0 : c.numFlagBits ≠ 0 := by omega
      rw [hflags hn0, List.getD_eq_getElem?_getD, List.getElem?_replicate]
      simp [hi]

/-- A concrete container for the C10 witness: two rows, the first holding a
StringHeap view of block 7, with a variable-row-size counter present. -/
def cReuse : Container :=
  { rows := [{ freeBit := false, nextFreePtr := none, flagBits := [true, true],
               varSizeCounter := 12, varViews := [some 7] },
             default],
    firstFreeRow := none, numRows := 2, numFreeRows := 0, isMutable := true,
    heap := [7, 9], destroyedAcc := [], rowSizeOffset := 16, nextOffset := 0,
    numFlagBits := 2 }

/-- Witness for C10 at the concrete container `cReuse`. -/
theorem initializeRow_reuse_spec_witness :
    0 < cReuse.rows.length ∧
    ((cReuse.nextOffset ≠ 0 → ∃ e, cReuse.initializeRow 0 true = .error e) ∧
     (cReuse.nextOffset = 0 →
       ∃ c', cReuse.initializeRow 0 true = .ok c' ∧
         c'.heap = cReuse.heap.filter
           (fun b => decide (b ∉ freedBlocksOf (cReuse.getRow 0))) ∧
         c'.destroyedAcc = cReuse.destroyedAcc ++ [0] ∧
         (∀ i, i < cReuse.numFlagBits → (c'.getRow 0).flagBits.getD i true = false) ∧
         (cReuse.rowSizeOffset ≠ 0 → (c'.getRow 0).varSizeCounter = 0) ∧
         (c'.getRow 0).freeBit = false)) :=
  ⟨by decide, initializeRow_reuse_spec cReuse 0 (by decide)⟩

/-! The per-row erase loop: failure and success characterizations. -/

theorem eraseRowsLoop_error (rs : List Nat) (c : Container)
    (hbad : ∃ r ∈ rs, (c.getRow r).freeBit = true) :
    ∃ e, c.eraseRowsLoop rs = .error e := by
  induction rs generalizing c with
  | nil => obtain ⟨r, hr, _⟩ := hbad; simp at hr
  | cons r0 rs ih =>
      obtain ⟨r, hr, hb⟩ := hbad
      by_cases h0 : (c.getRow r0).freeBit
      · exact ⟨Err.programmingError "Double free of row",
          by simp [Container.eraseRowsLoop, h0]⟩
      · have hne : r ≠ r0 := by
          intro he; rw [he] at hb; exact h0 (by rw [hb])
        have hr' : r ∈ rs := by
          rcases List.mem_cons.mp hr with h | h
          · exact absurd h hne
          · exact h
        have hb' : (({ c.setRow r0
            { c.getRow r0 with freeBit := true, nextFreePtr := c.firstFreeRow }
              with firstFreeRow := some r0 } : Container).getRow r).freeBit = true := by
          show ((c.setRow r0 _).getRow r).freeBit = true
          rw [Container.getRow_setRow_ne _ _ _ _ (Ne.symm hne)]
          exact hb
        obtain ⟨e, he⟩ := ih _ ⟨r, hr', hb'⟩
        exact ⟨e, by simp only [Container.eraseRowsLoop, h0, if_false]; exact he⟩

theorem eraseRowsLoop_spec (rs : List Nat) (c : Container)
    (hv : ∀ r ∈ rs, r < c.rows.length)
    (hlive : ∀ r ∈ rs, (c.getRow r).freeBit = false)
    (hnd : rs.Nodup) :
    ∃ c', c.eraseRowsLoop rs = .ok c' ∧
      c'.rows.length = c.rows.length ∧
      (∀ i, i ∉ rs → c'.getRow i = c.getRow i) ∧
      (∀ r ∈ rs, (c'.getRow r).freeBit = true) ∧
      c'.firstFreeRow = rs.foldl (fun _ r => some r) c.firstFreeRow ∧
      (∀ i, i < rs.length →
        (c'.getRow (rs.getD i 0)).nextFreePtr =
          (c.firstFreeRow :: rs.map some).getD i none) ∧
      c'.numFreeRows = c.numFreeRows ∧ c'.numRows = c.numRows ∧
      c'.isMutable = c.isMutable ∧ c'.heap = c.heap ∧
      c'.destroyedAcc = c.destroyedAcc := by
  induction rs generalizing c with
  | nil =>
      exact ⟨c, rfl, rfl, fun _ _ => rfl, by simp, rfl, by simp, rfl, rfl,
        rfl, rfl, rfl⟩
  | cons r0 rs ih =>
      have h0 : (c.getRow r0).freeBit = false := hlive r0 (by simp)
      have hr0 : r0 < c.rows.length := hv r0 (by simp)
      have hr0nin : r0 ∉ rs := (List.nodup_cons.mp hnd).1
      set c1 : Container :=
        { c.setRow r0
            { c.getRow r0 with freeBit := true, nextFreePtr := c.firstFreeRow }
          with firstFreeRow := some r0 } with hc1
      have hc1get : ∀ i, i ≠ r0 → c1.getRow i = c.getRow i := by
        intro i hi
        show (c.setRow r0 _).getRow i = c.getRow i
        exact Container.getRow_setRow_ne _ _ _ _ (Ne.symm hi)
      have hc1get0 : c1.getRow r0 =
          { c.getRow r0 with freeBit := true, nextFreePtr := c.firstFreeRow } := by
        show (c.setRow r0 _).getRow r0 = _
        exact Container.getRow_setRow_self _ _ _ hr0
      have hc1len : c1.rows.length = c.rows.length := by
        simp [hc1, Container.setRow]
      obtain ⟨c', hok, hlen, hunch, hfree, hhead, hchain, hnf, hnr, hmut,
        hheap, hacc⟩ :=
        ih c1
          (fun r hrm => by rw [hc1len]; exact hv r (by simp [hrm]))
          (fun r hrm => by
            rw [hc1get r (fun he => hr0nin (he ▸ hrm))]
            exact hlive r (by simp [hrm]))
          (List.nodup_cons.mp hnd).2
      have hc1nf : c1.numFreeRows = c.numFreeRows := rfl
      have hc1nr : c1.numRows = c.numRows := rfl
      have hc1mut : c1.isMutable = c.isMutable := rfl
      have hc1heap : c1.heap = c.heap := rfl
      have hc1acc : c1.destroyedAcc = c.destroyedAcc := rfl
      refine ⟨c', ?_, by rw [hlen, hc1len], ?_, ?_, ?_, ?_,
        by rw [hnf, hc1nf], by rw [hnr, hc1nr], by rw [hmut, hc1mut],
        by rw [hheap, hc1heap], by rw [hacc, hc1acc]⟩
      · simp only [Container.eraseRowsLoop, h0, Bool.false_eq_true, if_false]
        exact hok
      · intro i hi
        rw [hunch i (fun h => hi (by simp [h])), hc1get i (fun h => hi (by simp [h]))]
      · intro r hrm
        rcases List.mem_cons.mp hrm with h | h
        · rw [h, hunch r0 hr0nin, hc1get0]
        · exact hfree r h
      · rw [hhead]
        simp [hc1]
      · intro i hi
        cases i with
        | zero =>
            simp only [List.getD_eq_getElem?_getD, List.getElem?_cons_zero,
              Option.getD_some]
            rw [hunch r0 hr0nin, hc1get0]
        | succ i' =>
            have := hchain i' (by simp at hi; omega)
            simp only [List.getD_eq_getElem?_getD, List.getElem?_cons_succ]
            simp only [List.getD_eq_getElem?_getD] at this
            rw [this]
            simp [hc1]

/-- C6: eraseRows detects double frees: if any row in the batch already has
its free bit set, the call is a fatal ProgrammingError; on a batch of live
distinct rows it sets every row's free bit and links the rows into the
free list (each row's next pointer receiving the previous head, the head
ending at the last row of the batch), incrementing numFreeRows by the
batch size. -/
theorem eraseRows_double_free_and_link (c : Container) (rs : List Nat)
    (hv : ∀ r ∈ rs, r < c.rows.length) :
    ((∃ r ∈ rs, (c.getRow r).freeBit = true) →
      ∃ e, c.eraseRows rs = .error e) ∧
    ((∀ r ∈ rs, (c.getRow r).freeBit = false) → rs.Nodup →
      ∃ c', c.eraseRows rs = .ok c' ∧
        (∀ r ∈ rs, (c'.getRow r).freeBit = true) ∧
        c'.firstFreeRow = rs.foldl (fun _ r => some r) c.firstFreeRow ∧
        (∀ i, i < rs.length →
          (c'.getRow (rs.getD i 0)).nextFreePtr =
            (c.firstFreeRow :: rs.map some).getD i none) ∧
        c'.numFreeRows = c.numFreeRows + rs.length) := by
  have hgetFRE : ∀ r, (c.freeRowsExtraMemory rs).getRow r = c.getRow r :=
    fun r => rfl
  have hlenFRE : (c.freeRowsExtraMemory rs).rows.length = c.rows.length := rfl
  have hffrFRE : (c.freeRowsExtraMemory rs).firstFreeRow = c.firstFreeRow := rfl
  have hnfFRE : (c.freeRowsExtraMemory rs).numFreeRows = c.numFreeRows := rfl
  constructor
  · intro hbad
    obtain ⟨e, he⟩ := eraseRowsLoop_error rs (c.freeRowsExtraMemory rs)
      (by obtain ⟨r, hrm, hb⟩ := hbad; exact ⟨r, hrm, by rw [hgetFRE]; exact hb⟩)
    exact ⟨e, by simp only [Container.eraseRows, he]; rfl⟩
  · intro hlive hnd
    obtain ⟨c', hok, _, _, hfree, hhead, hchain, hnf, _, _, _, _⟩ :=
      eraseRowsLoop_spec rs (c.freeRowsExtraMemory rs)
        (fun r hrm => by rw [hlenFRE]; exact hv r hrm)
        (fun r hrm => by rw [hgetFRE]; exact hlive r hrm)
        hnd
    refine ⟨{ c' with numFreeRows := c'.numFreeRows + rs.length }, ?_,
      hfree, by rw [hhead, hffrFRE], ?_, by rw [hnf, hnfFRE]⟩
    · simp only [Container.eraseRows, hok]; rfl
    · intro i hi
      have := hchain i hi
      rw [hffrFRE] at this
      exact this

/-- A container with four rows of which row 1 is already on the free list. -/
def cOneFreed : Container :=
  { rows := [default,
             { freeBit := true, nextFreePtr := none, flagBits := [false, false],
               varSizeCounter := 0, varViews := [] },
             default, default],
    firstFreeRow := some 1, numRows := 3, numFreeRows := 1, isMutable := true,
    heap := [], destroyedAcc := [], rowSizeOffset := 0, nextOffset := 0,
    numFlagBits := 2 }

/-- Witness for C6: on `cFour` (all rows live) erasing rows 2 and 3 links
them LIFO; and on `cOneFreed`, erasing row 1 again is a fatal error. -/
theorem eraseRows_double_free_and_link_witness :
    (∀ r ∈ [2, 3], r < cFour.rows.length) ∧
    (((∃ r ∈ [2, 3], (cFour.getRow r).freeBit = true) →
        ∃ e, cFour.eraseRows [2, 3] = .error e) ∧
      ((∀ r ∈ [2, 3], (cFour.getRow r).freeBit = false) → ([2, 3] : List Nat).Nodup →
        ∃ c', cFour.eraseRows [2, 3] = .ok c' ∧
          (∀ r ∈ [2, 3], (c'.getRow r).freeBit = true) ∧
          c'.firstFreeRow = ([2, 3] : List Nat).foldl (fun _ r => some r) cFour.firstFreeRow ∧
          (∀ i, i < ([2, 3] : List Nat).length →
            (c'.getRow (([2, 3] : List Nat).getD i 0)).nextFreePtr =
              (cFour.firstFreeRow :: ([2, 3] : List Nat).map some).getD i none) ∧
          c'.numFreeRows = cFour.numFreeRows + ([2, 3] : List Nat).length)) ∧
    (∃ e, cOneFreed.eraseRows [1] = .error e) :=
  ⟨by decide, eraseRows_double_free_and_link cFour [2, 3] (by decide),
    (eraseRows_double_free_and_link cOneFreed [1] (by decide)).1
      ⟨1, by decide, by decide⟩⟩

/-! C3: what newRow returns right after eraseRows. -/

/-- Repeatedly allocate rows, discarding the returned pointers. -/
def allocN : Container → Nat → Except Err Container
  | c, 0 => .ok c
  | c, n + 1 =>
      match c.newRow with
      | .error e => .error e
      | .ok (c', _) => allocN c' n

/-- An empty mutable container with two nullable fixed-width keys. -/
def cEmpty : Container :=
  { rows := [], firstFreeRow := none, numRows := 0, numFreeRows := 0,
    isMutable := true, heap := [], destroyedAcc := [], rowSizeOffset := 0,
    nextOffset := 0, numFlagBits := 2 }

/-- C3 counterexample: allocate 4 rows, erase rows 2 and 3 in that order;
the next newRow returns the slot of row 3, the LAST row of the erased
batch, not the first (row 2) as the claim states. -/
theorem newRow_after_eraseRows_not_first :
    (do
      let c ← allocN cEmpty 4
      let c ← c.eraseRows [2, 3]
      let p ← c.newRow
      pure p.2 : Except Err Nat) = .ok 3 ∧
    ([2, 3] : List Nat).headD 0 = 2 ∧ (3 : Nat) ≠ 2 :=
  ⟨rfl, rfl, by decide⟩

theorem foldl_some_getLast (rs : List Nat) (init : Option Nat) (hne : rs ≠ []) :
    rs.foldl (fun _ r => some r) init = some (rs.getLast hne) := by
  induction rs generalizing init with
  | nil => exact absurd rfl hne
  | cons r rs ih =>
      cases rs with
      | nil => rfl
      | cons a as =>
          rw [List.foldl_cons, ih (some r) (by simp)]
          exact congrArg some (List.getLast_cons (by simp)).symm

theorem initializeRow_false_eq (c : Container) (r : Nat) :
    c.initializeRow r false =
      .ok (finishInit c r
        (if c.rowSizeOffset ≠ 0 then c.setRow r (memsetZero (c.getRow r)) else c)) := by
  unfold Container.initializeRow
  by_cases h : c.rowSizeOffset ≠ 0 <;> simp [h]

/-- When the free list is non-empty and its head row has the free bit set,
newRow on a mutable container pops exactly that head row. -/
theorem newRow_pop (c : Container) (l : Nat) (hm : c.isMutable = true)
    (hffr : c.firstFreeRow = some l) (hfb : (c.getRow l).freeBit = true) :
    ∃ c'', c.newRow = .ok (c'', l) := by
  unfold Container.newRow
  rw [hm]
  simp only [Bool.not_true, Bool.false_eq_true, if_false]
  have h1 : ({ c with numRows := c.numRows + 1, isMutable := true } : Container).firstFreeRow = some l := hffr
  rw [h1]
  have h2 : (({ c with firstFreeRow := some l, numRows := c.numRows + 1, isMutable := true } : Container).getRow l).freeBit = true := hfb
  simp only [h2, Bool.not_true, Bool.false_eq_true, if_false]
  rw [initializeRow_false_eq]
  exact ⟨_, rfl⟩

/-- C3 (amended): free-list pops are LIFO with respect to the erase batch:
immediately after eraseRows(S) on a non-empty batch S of distinct live
rows, the next newRow returns exactly the LAST row in S (in the concrete
scenario where rows 2 and 3 are erased in that order, the next newRow
returns the slot of row 3). -/
theorem newRow_after_eraseRows_returns_last (c : Container) (rs : List Nat)
    (hm : c.isMutable = true)
    (hv : ∀ r ∈ rs, r < c.rows.length)
    (hlive : ∀ r ∈ rs, (c.getRow r).freeBit = false)
    (hnd : rs.Nodup) (hne : rs ≠ []) :
    ∃ c' c'', c.eraseRows rs = .ok c' ∧
      c'.newRow = .ok (c'', rs.getLast hne) := by
  obtain ⟨c', hok, hfree, hhead, _, _⟩ :=
    (eraseRows_double_free_and_link c rs hv).2 hlive hnd
  have hmut' : c'.isMutable = true := by
    obtain ⟨c'', hok2, _, _, _, _, _, _, _, hmut2, _, _⟩ :=
      eraseRowsLoop_spec rs (c.freeRowsExtraMemory rs)
        (fun r hrm => hv r hrm)
        (fun r hrm => hlive r hrm)
        hnd
    have : c.eraseRows rs =
        .ok ({ c'' with numFreeRows := c''.numFreeRows + rs.length }) := by
      simp only [Container.eraseRows, hok2]; rfl
    rw [hok] at this
    cases this
    show c''.isMutable = true
    rw [hmut2]; exact hm
  have hlast : c'.firstFreeRow = some (rs.getLast hne) := by
    rw [hhead, foldl_some_getLast rs c.firstFreeRow hne]
  have hlastfree : (c'.getRow (rs.getLast hne)).freeBit = true :=
    hfree _ (List.getLast_mem hne)
  obtain ⟨c2, h2⟩ := newRow_pop c' (rs.getLast hne) hmut' hlast hlastfree
  exact ⟨c', c2, hok, h2⟩

/-- Witness for the amended C3 at the concrete container `cFour`,
erasing rows 2 and 3 in that order. -/
theorem newRow_after_eraseRows_returns_last_witness :
    cFour.isMutable = true ∧ (∀ r ∈ [2, 3], r < cFour.rows.length) ∧
    (∃ c' c'', cFour.eraseRows [2, 3] = .ok c' ∧
      c'.newRow = .ok (c'', ([2, 3] : List Nat).getLast (by decide))) :=
  ⟨rfl, by decide,
    newRow_after_eraseRows_returns_last cFour [2, 3] rfl (by decide)
      (by decide) (by decide) (by decide)⟩

/-! ### Column hashing (RowContainer.cpp:871-954)

`hash` / `hashTyped` operate on one column across a batch of rows.  The
model keeps, per row, the column's null bit and stored value.  The hash
leaf functions (folly::hasher, ContainerRowSerde::hash, bits::hashMix,
a custom-comparison type's hash) are external collaborators consumed
through narrow interfaces, so they are parameters here.  -/

/-- A floating-point value: a NaN of some sign/payload bit pattern, or a
finite/infinite value represented exactly. -/
inductive FVal where
  | nan (negative : Bool) (payload : Nat)
  | fin (q : ℚ)
deriving DecidableEq

/-- A stored column value as the hash/compare paths see it. -/
inductive CVal where
  | fl (x : FVal)
  | bytes (bs : List Nat)
  | intv (v : Int)
deriving DecidableEq

/-- The type-kind classes distinguished by the hash dispatch. -/
inductive HKind where
  | unknown
  | floating
  | varchar
  | complex
  | fixed
deriving DecidableEq

/-- One row's view of the hashed column. -/
structure HRow where
  isNull : Bool
  val : CVal
deriving DecidableEq

/-- The external hash collaborators: bits::hashMix, folly::hasher over
contiguous bytes / fixed-width values, ContainerRowSerde::hash, a
custom-comparison type's hash, and the two halves of
util::floating_point::NaNAwareHash. -/
structure HashFns where
  hashMix : Nat → Nat → Nat
  follyBytes : List Nat → Nat
  follyInt : Int → Nat
  serdeHash : List Nat → Nat
  customHash : CVal → Nat
  finiteHash : ℚ → Nat
  nanHash : Nat

/-- Modelled from the spec: util::floating_point::NaNAwareHash (declared in
velox/type/FloatingPointUtil.h, not among the analysed sources) collapses
every NaN bit pattern — any sign, any payload — to one canonical hash, and
hashes non-NaN values by their value. -/
def nanAwareHash (fns : HashFns) : FVal → Nat
  | .nan _ _ => fns.nanHash
  | .fin q => fns.finiteHash q

/-- BaseVector::kNullHash, the fixed null-sentinel hash (the constant lives
in the vector headers; its concrete value is irrelevant to the claims). -/
def kNullHash : Nat := 1

/-- RowContainer::hashTyped (RowContainer.cpp:871-912) for one column over
a batch of rows: a null row yields the null-sentinel hash; otherwise
VARCHAR/VARBINARY hash their contiguous bytes, complex types hash through
ContainerRowSerde, custom-comparison types use the type's hash, floats use
the NaN-aware hash, and remaining fixed-width values use folly's hasher.
With `mix` the new hash is mixed into the previous result, else it
overwrites it. -/
def hashTyped (fns : HashFns) (custom : Bool) (kind : HKind)
    (nullable : Bool) (rows : List HRow) (mix : Bool) (result : List Nat) :
    List Nat :=
  List.zipWith
    (fun r acc =>
      if nullable && r.isNull then
        if mix then fns.hashMix acc kNullHash else kNullHash
      else
        let h : Nat :=
          match kind, r.val with
          | .varchar, .bytes bs => fns.follyBytes bs
          | .complex, .bytes bs => fns.serdeHash bs
          | k, v =>
              if custom then fns.customHash v
              else
                match k, v with
                | .floating, .fl x => nanAwareHash fns x
                | .fixed, .intv i => fns.follyInt i
                | _, _ => 0
        if mix then fns.hashMix acc h else h)
    rows result

/-- RowContainer::hash (RowContainer.cpp:914-954): a column of kind UNKNOWN
writes the null-sentinel hash for every row regardless of the rows'
contents; any other kind dispatches to hashTyped with
`nullable = (column >= keyTypes_.size() || nullableKeys_)`. -/
def hashColumn (fns : HashFns) (kind : HKind) (custom : Bool)
    (isKeyColumn nullableKeys : Bool) (rows : List HRow) (mix : Bool)
    (result : List Nat) : List Nat :=
  if kind = .unknown then
    List.zipWith
      (fun _ acc => if mix then fns.hashMix acc kNullHash else kNullHash)
      rows result
  else
    hashTyped fns custom kind (!isKeyColumn || nullableKeys) rows mix result

theorem zipWith_const_right {α β γ : Type} (g : β → γ) (xs : List α)
    (ys : List β) (h : ys.length = xs.length) :
    List.zipWith (fun _ y => g y) xs ys = ys.map g := by
  induction xs generalizing ys with
  | nil => cases ys with
      | nil => rfl
      | cons y ys => simp at h
  | cons x xs ih =>
      cases ys with
      | nil => simp at h
      | cons y ys =>
          simp only [List.zipWith_cons_cons, List.map_cons]
          rw [ih ys (by simpa using h)]

/-- C9: for a column of kind UNKNOWN, hash writes the fixed null-sentinel
hash for every row — mixed into the previous value when `mix` is set,
otherwise overwriting it — regardless of the rows' stored contents or null
bits (any other batch of the same size produces the same output). -/
theorem hash_unknown_sentinel (fns : HashFns) (custom : Bool)
    (isKey nk : Bool) (rows rows' : List HRow) (mix : Bool)
    (result : List Nat) (hlen : result.length = rows.length)
    (hlen' : rows'.length = rows.length) :
    hashColumn fns .unknown custom isKey nk rows mix result =
      result.map (fun acc => if mix then fns.hashMix acc kNullHash else kNullHash) ∧
    hashColumn fns .unknown custom isKey nk rows mix result =
      hashColumn fns .unknown custom isKey nk rows' mix result := by
  have h1 : hashColumn fns .unknown custom isKey nk rows mix result =
      result.map (fun acc => if mix then fns.hashMix acc kNullHash else kNullHash) := by
    unfold hashColumn
    rw [if_pos rfl]
    exact zipWith_const_right _ rows result hlen
  have h2 : hashColumn fns .unknown custom isKey nk rows' mix result =
      result.map (fun acc => if mix then fns.hashMix acc kNullHash else kNullHash) := by
    unfold hashColumn
    rw [if_pos rfl]
    exact zipWith_const_right _ rows' result (by omega)
  exact ⟨h1, by rw [h1, h2]⟩

/-- A batch of hash functions with recognizable outputs, for witnesses. -/
def fnsW : HashFns :=
  { hashMix := fun a b => 31 * a + b
    follyBytes := fun bs => bs.foldl (fun a b => 31 * a + b) 5
    follyInt := fun v => v.natAbs * 2 + 3
    serdeHash := fun bs => bs.length
    customHash := fun _ => 77
    finiteHash := fun q => q.num.natAbs + q.den
    nanHash := 424242 }

/-- Witness for C9: an UNKNOWN column over two rows holding junk values and
differing null bits hashes to the sentinel for both rows, identically for
a second batch with other junk. -/
theorem hash_unknown_sentinel_witness :
    (([7, 8] : List Nat).length = ([⟨false, .intv 5⟩, ⟨true, .bytes [1]⟩] : List HRow).length) ∧
    (([⟨true, .fl (.nan true 3)⟩, ⟨false, .intv 9⟩] : List HRow).length =
      ([⟨false, .intv 5⟩, ⟨true, .bytes [1]⟩] : List HRow).length) ∧
    (hashColumn fnsW .unknown false true false
        [⟨false, .intv 5⟩, ⟨true, .bytes [1]⟩] true [7, 8] =
      [7, 8].map (fun acc => if true then fnsW.hashMix acc kNullHash else kNullHash) ∧
     hashColumn fnsW .unknown false true false
        [⟨false, .intv 5⟩, ⟨true, .bytes [1]⟩] true [7, 8] =
      hashColumn fnsW .unknown false true false
        [⟨true, .fl (.nan true 3)⟩, ⟨false, .intv 9⟩] true [7, 8]) :=
  ⟨rfl, rfl,
    hash_unknown_sentinel fnsW false true false
      [⟨false, .intv 5⟩, ⟨true, .bytes [1]⟩]
      [⟨true, .fl (.nan true 3)⟩, ⟨false, .intv 9⟩] true [7, 8] rfl rfl⟩

/-! ### NaN-aware comparison (C8)

`RowContainer::compare` is a typed template in RowContainer.h, which is
not among the analysed sources; the floating-point column comparator is
modelled from the spec. -/

/-- CompareFlags as consumed by the comparators. -/
structure CmpFlags where
  nullsFirst : Bool
  ascending : Bool
deriving DecidableEq

/-- Modelled from the spec: the floating-point total order used by
RowContainer::compare (util::floating_point, consumed through
RowContainer.h): every NaN — any sign, any payload — compares equal to
every NaN and greater than every non-NaN value. -/
def compareFloatValues : FVal → FVal → Int
  | .nan _ _, .nan _ _ => 0
  | .nan _ _, .fin _ => 1
  | .fin _, .nan _ _ => -1
  | .fin a, .fin b => if a < b then -1 else if a = b then 0 else 1

/-- Modelled from the spec: RowContainer::compare on one floating-point
column of two rows: null ordering decided by nullsFirst, value order
negated when descending. -/
def compareFloatCol (flags : CmpFlags) (l r : HRow) : Int :=
  match l.isNull, r.isNull with
  | true, true => 0
  | true, false => if flags.nullsFirst then -1 else 1
  | false, true => if flags.nullsFirst then 1 else -1
  | false, false =>
      let res :=
        match l.val, r.val with
        | .fl a, .fl b => compareFloatValues a b
        | _, _ => 0
      if flags.ascending then res else -res

/-- C8: two non-null rows of a floating-point key column without a custom
comparison, storing NaN values of any bit pattern or sign, hash
identically on that column and compare equal. -/
theorem nan_rows_hash_and_compare_equal (fns : HashFns) (isKey nk : Bool)
    (s1 s2 : Bool) (p1 p2 : Nat) (flags : CmpFlags) :
    (∃ h, hashColumn fns .floating false isKey nk
        [⟨false, .fl (.nan s1 p1)⟩, ⟨false, .fl (.nan s2 p2)⟩] false [0, 0] =
        [h, h]) ∧
    compareFloatCol flags ⟨false, .fl (.nan s1 p1)⟩ ⟨false, .fl (.nan s2 p2)⟩ = 0 := by
  constructor
  · refine ⟨fns.nanHash, ?_⟩
    unfold hashColumn hashTyped
    simp [nanAwareHash]
  · unfold compareFloatCol
    simp only []
    cases flags.ascending <;> simp [compareFloatValues]

/-- Witness for C8: a negative quiet NaN and a positive NaN with a
different payload, with concrete hash functions. -/
theorem nan_rows_hash_and_compare_equal_witness :
    (∃ h, hashColumn fnsW .floating false true true
        [⟨false, .fl (.nan true 51)⟩, ⟨false, .fl (.nan false 7)⟩] false [0, 0] =
        [h, h]) ∧
    compareFloatCol ⟨true, true⟩ ⟨false, .fl (.nan true 51)⟩
      ⟨false, .fl (.nan false 7)⟩ = 0 :=
  nan_rows_hash_and_compare_equal fnsW true true true false 51 7 ⟨true, true⟩

/-! ### Whole-row serialization (RowContainer.cpp:603-772)

The serialized wire format is `[flag bytes | per-column payloads]`: fixed
columns contribute their raw bytes, variable-width columns 4 little-endian
size bytes followed by that many content bytes (size 0 when null).  A row
is modelled by its flag block (the `flagBytes_` bytes starting at the null
byte of column 0) and per-column payload bytes; a column by its kind and
its null-bit index within the flag block (`none` for non-nullable keys,
the source's kNotNullOffset). -/

/-- Column kinds as the serializer distinguishes them. -/
inductive SColKind where
  | fixedW (width : Nat)
  | varW
deriving DecidableEq

/-- A column descriptor: type kind plus null-bit position (RowColumn). -/
structure SColDesc where
  kind : SColKind
  nullBit : Option Nat
deriving DecidableEq

/-- The container data the serializer consumes. -/
structure SerCfg where
  cols : List SColDesc
  flagBytes : Nat
deriving DecidableEq

/-- A row as the serializer sees it. -/
structure SRow where
  flags : List Nat
  payload : List (List Nat)
deriving DecidableEq

/-- Test a null bit inside the flag block (bits::isBitSet on the row's
flag bytes); a `none` bit (non-nullable key) is never null. -/
def nullBitSet (flags : List Nat) : Option Nat → Bool
  | none => false
  | some b => (flags.getD (b / 8) 0).testBit (b % 8)

/-- RowContainer::isNullAt for column `j` of the modelled row. -/
def isNullAt (cfg : SerCfg) (r : SRow) (j : Nat) : Bool :=
  nullBitSet r.flags (cfg.cols.getD j ⟨.fixedW 0, none⟩).nullBit

/-- Four little-endian bytes of a 32-bit size. -/
def le4 (n : Nat) : List Nat :=
  [n % 256, n / 256 % 256, n / 65536 % 256, n / 16777216 % 256]

/-- Read back four little-endian size bytes. -/
def readLe4 (bs : List Nat) : Nat :=
  bs.getD 0 0 + 256 * bs.getD 1 0 + 65536 * bs.getD 2 0 + 16777216 * bs.getD 3 0

/-- The per-column serialization loop of RowContainer::extractSerializedRows
(RowContainer.cpp:728-738), with RowContainer::extractVariableSizeAt
(603-642) inlined for variable-width columns: fixed columns memcpy their
raw bytes (null or not), variable-width columns write 4 size bytes and the
contents — size 0 and no contents when null. -/
def extractCols : List SColDesc → List (List Nat) → List Nat → List Nat
  | [], _, _ => []
  | d :: ds, ps, flags =>
      (match d.kind with
       | .fixedW _ => ps.headD []
       | .varW =>
           if nullBitSet flags d.nullBit then le4 0
           else le4 (ps.headD []).length ++ ps.headD []) ++
        extractCols ds ps.tail flags

/-- RowContainer::extractSerializedRows for one row: the flag block
(memcpy from the null byte of column 0) followed by the column payloads. -/
def extractSerializedRow (cfg : SerCfg) (r : SRow) : List Nat :=
  r.flags ++ extractCols cfg.cols r.payload r.flags

/-- The per-column loop of RowContainer::storeSerializedRow
(RowContainer.cpp:760-771), with RowContainer::storeVariableSizeAt
(644-675) inlined: fixed columns memcpy their width, variable-width
columns read 4 size bytes and then that many content bytes (an empty view
when the size is 0). -/
def storeCols : List SColDesc → List Nat → List (List Nat)
  | [], _ => []
  | d :: ds, data =>
      match d.kind with
      | .fixedW w => data.take w :: storeCols ds (data.drop w)
      | .varW =>
          (data.drop 4).take (readLe4 (data.take 4)) ::
            storeCols ds ((data.drop 4).drop (readLe4 (data.take 4)))

/-- RowContainer::storeSerializedRow (RowContainer.cpp:748-772) into a
fresh row: memcpy the flag bytes, then store each column in order. -/
def storeSerializedRow (cfg : SerCfg) (data : List Nat) : SRow :=
  { flags := data.take cfg.flagBytes
    payload := storeCols cfg.cols (data.drop cfg.flagBytes) }

/-- Well-formedness of a row built by a sequence of stores: the flag block
has `flagBytes` bytes, and each column payload has the column's width
(fixed) or a length representable in the 4 size bytes (variable). -/
def WFRow (cfg : SerCfg) (r : SRow) : Prop :=
  r.flags.length = cfg.flagBytes ∧
  List.Forall₂
    (fun (d : SColDesc) (p : List Nat) =>
      match d.kind with
      | .fixedW w => p.length = w
      | .varW => p.length < 2 ^ 32)
    cfg.cols r.payload

/-! Observable reads of one column, mirroring the extract/hash/compare
paths: each consults the null bit first and otherwise sees exactly the
payload bytes. -/

/-- Per-column read (RowContainer::extractColumn's per-row behavior): null
yields nothing, otherwise the payload bytes. -/
def readColumn (cfg : SerCfg) (r : SRow) (j : Nat) : Option (List Nat) :=
  if isNullAt cfg r j then none else some (r.payload.getD j [])

/-- Per-column hash (the structure of RowContainer::hashTyped at this
byte-level view, the type-specific hasher `h` being the external
collaborator): the null sentinel for nulls, else a hash of the payload. -/
def hashSerCol (h : List Nat → Nat) (cfg : SerCfg) (r : SRow) (j : Nat) : Nat :=
  if isNullAt cfg r j then kNullHash else h (r.payload.getD j [])

/-- Modelled from the spec: RowContainer::compare on one column (the typed
comparator lives in RowContainer.h): null ordering by nullsFirst, value
ordering by the type's comparator `cmp`, negated when descending. -/
def compareSerCol (cmp : List Nat → List Nat → Int) (flags : CmpFlags)
    (cfg : SerCfg) (l r : SRow) (j : Nat) : Int :=
  match isNullAt cfg l j, isNullAt cfg r j with
  | true, true => 0
  | true, false => if flags.nullsFirst then -1 else 1
  | false, true => if flags.nullsFirst then 1 else -1
  | false, false =>
      let res := cmp (l.payload.getD j []) (r.payload.getD j [])
      if flags.ascending then res else -res

theorem readLe4_le4 (n : Nat) (h : n < 2 ^ 32) : readLe4 (le4 n) = n := by
  unfold readLe4 le4
  simp only [List.getD_eq_getElem?_getD, List.getElem?_cons_zero,
    List.getElem?_cons_succ, Option.getD_some]
  omega

theorem le4_length (n : Nat) : (le4 n).length = 4 := rfl

/-- Parsing the serialization of a column list recovers the payloads
(variable-width null columns coming back as the empty view). -/
theorem storeCols_extractCols (flags : List Nat) (ds : List SColDesc)
    (ps : List (List Nat))
    (hwf : List.Forall₂
      (fun (d : SColDesc) (p : List Nat) =>
        match d.kind with
        | .fixedW w => p.length = w
        | .varW => p.length < 2 ^ 32) ds ps) :
    storeCols ds (extractCols ds ps flags) =
      List.zipWith
        (fun (d : SColDesc) (p : List Nat) =>
          match d.kind with
          | .fixedW _ => p
          | .varW => if nullBitSet flags d.nullBit then [] else p)
        ds ps := by
  induction hwf with
  | nil => rfl
  | @cons d p ds ps hdp hrest ih =>
      cases hk : d.kind with
      | fixedW w =>
          have hp : p.length = w := by
            have := hdp; rw [hk] at this; exact this
          simp only [extractCols, storeCols, hk, List.headD_cons, List.tail_cons,
            List.zipWith_cons_cons]
          rw [← hp, List.take_left, List.drop_left, ih]
      | varW =>
          have hp : p.length < 2 ^ 32 := by
            have := hdp; rw [hk] at this; exact this
          by_cases hn : nullBitSet flags d.nullBit
          · simp only [extractCols, storeCols, hk, List.headD_cons,
              List.tail_cons, List.zipWith_cons_cons, hn, if_true]
            have h4 : (le4 0 ++ extractCols ds ps flags).take 4 = le4 0 := by
              rw [← le4_length 0]; exact List.take_left _ _
            have h4' : (le4 0 ++ extractCols ds ps flags).drop 4 =
                extractCols ds ps flags := by
              rw [← le4_length 0]; exact List.drop_left _ _
            rw [h4, h4', readLe4_le4 0 (by norm_num)]
            simp only [List.take_zero, List.drop_zero]
            rw [ih]
          · have hn' : nullBitSet flags d.nullBit = false := by simpa using hn
            simp only [extractCols, storeCols, hk, List.headD_cons,
              List.tail_cons, List.zipWith_cons_cons, hn', Bool.false_eq_true,
              if_false, List.append_assoc]
            have h4 : ((le4 p.length) ++ (p ++ extractCols ds ps flags)).take 4 =
                le4 p.length := by
              rw [← le4_length p.length]; exact List.take_left _ _
            have h4' : ((le4 p.length) ++ (p ++ extractCols ds ps flags)).drop 4 =
                p ++ extractCols ds ps flags := by
              rw [← le4_length p.length]; exact List.drop_left _ _
            rw [h4, h4', readLe4_le4 p.length hp, List.take_left, List.drop_left, ih]

theorem roundtrip_flags (cfg : SerCfg) (r : SRow) (hwf : WFRow cfg r) :
    (storeSerializedRow cfg (extractSerializedRow cfg r)).flags = r.flags := by
  unfold storeSerializedRow extractSerializedRow
  simp only []
  rw [← hwf.1, List.take_left]

theorem roundtrip_payload (cfg : SerCfg) (r : SRow) (hwf : WFRow cfg r) :
    (storeSerializedRow cfg (extractSerializedRow cfg r)).payload =
      List.zipWith
        (fun (d : SColDesc) (p : List Nat) =>
          match d.kind with
          | .fixedW _ => p
          | .varW => if nullBitSet r.flags d.nullBit then [] else p)
        cfg.cols r.payload := by
  unfold storeSerializedRow extractSerializedRow
  simp only []
  rw [← hwf.1, List.drop_left]
  exact storeCols_extractCols r.flags cfg.cols r.payload hwf.2

/-- C1: serializing a well-formed row with extractSerializedRows and
loading the result into a fresh row of the same container with
storeSerializedRow yields an observably equal row: identical null bits,
identical per-column reads, identical per-column hash, and compare
returning 0 on every column (for any type comparator that is reflexive). -/
theorem storeSerializedRow_roundtrip (cfg : SerCfg) (r : SRow)
    (hwf : WFRow cfg r) :
    (∀ j, isNullAt cfg (storeSerializedRow cfg (extractSerializedRow cfg r)) j =
      isNullAt cfg r j) ∧
    (∀ j, j < cfg.cols.length →
      readColumn cfg (storeSerializedRow cfg (extractSerializedRow cfg r)) j =
        readColumn cfg r j) ∧
    (∀ h j, j < cfg.cols.length →
      hashSerCol h cfg (storeSerializedRow cfg (extractSerializedRow cfg r)) j =
        hashSerCol h cfg r j) ∧
    (∀ cmp flags j, (∀ bs, cmp bs bs = 0) → j < cfg.cols.length →
      compareSerCol cmp flags cfg
        (storeSerializedRow cfg (extractSerializedRow cfg r)) r j = 0) := by
  set r' := storeSerializedRow cfg (extractSerializedRow cfg r) with hr'
  have hflags : r'.flags = r.flags := roundtrip_flags cfg r hwf
  have hnull : ∀ j, isNullAt cfg r' j = isNullAt cfg r j := by
    intro j
    unfold isNullAt
    rw [hflags]
  have hlenp : r.payload.length = cfg.cols.length := (hwf.2.length_eq).symm
  have hpay : ∀ j, j < cfg.cols.length → isNullAt cfg r j = false →
      r'.payload.getD j [] = r.payload.getD j [] := by
    intro j hj hn
    have hz := roundtrip_payload cfg r hwf
    rw [← hr'] at hz
    rw [hz, List.getD_eq_getElem?_getD, List.getElem?_zipWith]
    have hc : cfg.cols[j]? = some (cfg.cols.getD j ⟨.fixedW 0, none⟩) := by
      rw [List.getD_eq_getElem?_getD, List.getElem?_eq_getElem hj]
      rfl
    have hp : r.payload[j]? = some (r.payload.getD j []) := by
      rw [List.getD_eq_getElem?_getD, List.getElem?_eq_getElem (by omega)]
      rfl
    rw [hc, hp]
    simp only []
    cases hk : (cfg.cols.getD j ⟨.fixedW 0, none⟩).kind with
    | fixedW w => rfl
    | varW =>
        unfold isNullAt at hn
        rw [hn]
        rfl
  refine ⟨hnull, ?_, ?_, ?_⟩
  · intro j hj
    unfold readColumn
    rw [hnull j]
    by_cases hn : isNullAt cfg r j
    · rw [hn]; rfl
    · simp only [hn, Bool.false_eq_true, if_false]
      rw [hpay j hj (by simpa using hn)]
  · intro h j hj
    unfold hashSerCol
    rw [hnull j]
    by_cases hn : isNullAt cfg r j
    · rw [hn]; rfl
    · simp only [hn, Bool.false_eq_true, if_false]
      rw [hpay j hj (by simpa using hn)]
  · intro cmp flags j hrefl hj
    unfold compareSerCol
    rw [hnull j]
    by_cases hn : isNullAt cfg r j
    · rw [hn]
    · have hn' : isNullAt cfg r j = false := by simpa using hn
      rw [hn']
      simp only []
      rw [hpay j hj hn', hrefl]
      cases flags.ascending <;> simp

/-- A concrete configuration/row for the C1 witness: a non-nullable
4-byte key, a nullable variable-width column holding bytes, and a nullable
variable-width column that is null (bit 1 of the flag byte set) while
still holding junk payload bytes. -/
def cfgSer : SerCfg :=
  { cols := [⟨.fixedW 4, none⟩, ⟨.varW, some 0⟩, ⟨.varW, some 1⟩]
    flagBytes := 1 }

def rowSer : SRow :=
  { flags := [2]
    payload := [[10, 20, 30, 40], [1, 2, 3, 4, 5], [9, 9]] }

/-- Witness for C1 at the concrete row `rowSer` of container `cfgSer`. -/
theorem storeSerializedRow_roundtrip_witness :
    WFRow cfgSer rowSer ∧
    ((∀ j, isNullAt cfgSer (storeSerializedRow cfgSer (extractSerializedRow cfgSer rowSer)) j =
        isNullAt cfgSer rowSer j) ∧
     (∀ j, j < cfgSer.cols.length →
       readColumn cfgSer (storeSerializedRow cfgSer (extractSerializedRow cfgSer rowSer)) j =
         readColumn cfgSer rowSer j) ∧
     (∀ h j, j < cfgSer.cols.length →
       hashSerCol h cfgSer (storeSerializedRow cfgSer (extractSerializedRow cfgSer rowSer)) j =
         hashSerCol h cfgSer rowSer j) ∧
     (∀ cmp flags j, (∀ bs, cmp bs bs = 0) → j < cfgSer.cols.length →
       compareSerCol cmp flags cfgSer
         (storeSerializedRow cfgSer (extractSerializedRow cfgSer rowSer)) rowSer j = 0)) :=
  ⟨⟨rfl, .cons (by decide) (.cons (by decide) (.cons (by decide) .nil))⟩,
   storeSerializedRow_roundtrip cfgSer rowSer
     ⟨rfl, .cons (by decide) (.cons (by decide) (.cons (by decide) .nil))⟩⟩

/-! ### Bit toolbox for the SIMD partition scan (RowContainer.cpp:1102-1171)

The scan manipulates 32-bit lane masks: `simd::toBitMask` of a byte
comparison, `~bits::lowMask(k)`, `__builtin_ctz`, and `bits &= bits - 1`
(clear lowest set bit).  These are modelled over `Nat` with explicit
32-bit bounds. -/

/-- xsimd::batch<uint8_t>::size on the AVX2 targets the scan is written
for (the mask variables are uint32_t). -/
def kBatch : Nat := 32

/-- __builtin_ctz on a 32-bit mask: the index of the lowest set bit. -/
def ctz32 (n : Nat) : Nat := (List.range 32).findIdx (fun j => n.testBit j)

/-- Bitwise NOT on uint32. -/
def not32 (x : Nat) : Nat := (2 ^ 32 - 1) ^^^ x

/-- simd::toBitMask of a lane-wise predicate over `w` lanes: bit `j` of the
result is `f j`. -/
def maskOf (f : Nat → Bool) : Nat → Nat
  | 0 => 0
  | w + 1 => (if f 0 then 1 else 0) + 2 * maskOf (fun j => f (j + 1)) w

/-- The positions of the set bits of a 32-bit mask, ascending. -/
def bitIdx (bits : Nat) : List Nat :=
  (List.range 32).filter (fun j => bits.testBit j)

theorem testBit_two_mul_add_zero (b : Bool) (x : Nat) :
    (2 * x + (if b then 1 else 0)).testBit 0 = b := by
  rw [Nat.testBit_zero]
  cases b <;> simp <;> omega

theorem testBit_two_mul_add_succ (b : Bool) (x i : Nat) :
    (2 * x + (if b then 1 else 0)).testBit (i + 1) = x.testBit i := by
  rw [Nat.testBit_succ]
  congr 1
  cases b <;> simp <;> omega

theorem testBit_maskOf (f : Nat → Bool) (w : Nat) (j : Nat) :
    (maskOf f w).testBit j = (decide (j < w) && f j) := by
  induction w generalizing f j with
  | zero => simp [maskOf, Nat.zero_testBit]
  | succ w ih =>
      rw [maskOf, Nat.add_comm]
      cases j with
      | zero => rw [testBit_two_mul_add_zero]; simp
      | succ j =>
          rw [testBit_two_mul_add_succ, ih]
          simp [Nat.succ_lt_succ_iff]

theorem testBit_high_of_lt {x i : Nat} (h : x < 2 ^ 32) (hi : 32 ≤ i) :
    x.testBit i = false :=
  Nat.testBit_lt_two_pow (lt_of_lt_of_le h (Nat.pow_le_pow_right (by omega) hi))

/-- Least-set-bit characterization of `ctz32` on non-zero 32-bit masks. -/
theorem ctz32_spec (n : Nat) (h0 : n ≠ 0) (h32 : n < 2 ^ 32) :
    ctz32 n < 32 ∧ n.testBit (ctz32 n) = true ∧
      ∀ j, j < ctz32 n → n.testBit j = false := by
  have hex : ∃ j ∈ List.range 32, n.testBit j = true := by
    by_contra hnone
    push_neg at hnone
    apply h0
    apply Nat.eq_of_testBit_eq
    intro i
    rw [Nat.zero_testBit]
    by_cases hi : i < 32
    · have := hnone i (List.mem_range.mpr hi)
      simpa using this
    · exact testBit_high_of_lt h32 (by omega)
  have hlt : List.findIdx (fun j => n.testBit j) (List.range 32) <
      (List.range 32).length := List.findIdx_lt_length_of_exists hex
  rw [List.length_range] at hlt
  have := (List.findIdx_eq (by rw [List.length_range]; exact hlt)).mp rfl
  rw [List.getElem_range] at this
  refine ⟨hlt, this.1, fun j hj => ?_⟩
  have := this.2 j (by exact hj)
  rw [List.getElem_range] at this
  simpa using this

theorem land_self (a : Nat) : a &&& a = a := by
  apply Nat.eq_of_testBit_eq
  intro i
  rw [Nat.testBit_land, Bool.and_self]

theorem testBit_two_mul_zero (x : Nat) : (2 * x).testBit 0 = false := by
  rw [Nat.testBit_zero]
  simp only [decide_eq_false_iff_not]
  omega

theorem testBit_two_mul_one_zero (x : Nat) : (2 * x + 1).testBit 0 = true := by
  rw [Nat.testBit_zero]
  simp only [decide_eq_true_eq]
  omega

theorem testBit_two_mul_succ (x i : Nat) : (2 * x).testBit (i + 1) = x.testBit i := by
  rw [Nat.testBit_succ]
  congr 1
  omega

theorem testBit_two_mul_one_succ (x i : Nat) :
    (2 * x + 1).testBit (i + 1) = x.testBit i := by
  rw [Nat.testBit_succ]
  congr 1
  omega

theorem land_two_mul_add_one_left (a b : Nat) :
    (2 * a + 1) &&& (2 * b) = 2 * (a &&& b) := by
  apply Nat.eq_of_testBit_eq
  intro i
  rw [Nat.testBit_land]
  cases i with
  | zero =>
      rw [testBit_two_mul_one_zero, testBit_two_mul_zero, testBit_two_mul_zero]
      rfl
  | succ i =>
      rw [testBit_two_mul_one_succ, testBit_two_mul_succ, testBit_two_mul_succ,
        Nat.testBit_land]

theorem land_two_mul_two_mul (a b : Nat) :
    (2 * a) &&& (2 * b) = 2 * (a &&& b) := by
  apply Nat.eq_of_testBit_eq
  intro i
  rw [Nat.testBit_land]
  cases i with
  | zero =>
      rw [testBit_two_mul_zero, testBit_two_mul_zero, testBit_two_mul_zero]
      rfl
  | succ i =>
      rw [testBit_two_mul_succ, testBit_two_mul_succ, testBit_two_mul_succ,
        Nat.testBit_land]

/-- Clearing the lowest set bit: `b & (b - 1)` subtracts `2^c` where `c`
is the least set bit of `b`. -/
theorem land_pred_of_least (b : Nat) : ∀ c : Nat, b.testBit c = true →
    (∀ j, j < c → b.testBit j = false) → b &&& (b - 1) = b - 2 ^ c := by
  induction b using Nat.strong_induction_on with
  | _ b ih =>
      intro c hb hlow
      have hb0 : b ≠ 0 := by
        intro h
        rw [h, Nat.zero_testBit] at hb
        exact Bool.false_ne_true hb
      rcases Nat.even_or_odd b with he | ho
      · -- even: b = 2 * m with m ≠ 0, least bit c = c' + 1
        obtain ⟨m, hm⟩ := he
        have hm2 : b = 2 * m := by omega
        have hmne : m ≠ 0 := by omega
        cases c with
        | zero =>
            rw [hm2, testBit_two_mul_zero] at hb
            exact absurd hb Bool.false_ne_true
        | succ c' =>
            have hbc : m.testBit c' = true := by
              rw [hm2, testBit_two_mul_succ] at hb
              exact hb
            have hlow' : ∀ j, j < c' → m.testBit j = false := by
              intro j hj
              have := hlow (j + 1) (by omega)
              rw [hm2, testBit_two_mul_succ] at this
              exact this
            have hrec := ih m (by omega) c' hbc hlow'
            have hm1 : 2 * m - 1 = 2 * (m - 1) + 1 := by omega
            have h2c : (2 : Nat) ^ c' ≤ m := Nat.testBit_implies_ge hbc
            rw [hm2, hm1, Nat.land_comm, land_two_mul_add_one_left,
              Nat.land_comm, hrec]
            rw [pow_succ]
            omega
      · -- odd: least bit is 0
        obtain ⟨m, hm⟩ := ho
        have hm2 : b = 2 * m + 1 := by omega
        have hc0 : c = 0 := by
          by_contra hc
          have h0 := hlow 0 (by omega)
          have ht : b.testBit 0 = true := by
            rw [hm2]
            exact testBit_two_mul_one_zero m
          rw [h0] at ht
          exact Bool.false_ne_true ht
        subst hc0
        rw [hm2, show 2 * m + 1 - 1 = 2 * m from rfl, land_two_mul_add_one_left,
          land_self]
        have hp : (2 : Nat) ^ 0 = 1 := pow_zero 2
        omega

theorem mod_two_pow_eq_zero_of_low_bits (b c : Nat)
    (hlow : ∀ j, j < c → b.testBit j = false) : b % 2 ^ c = 0 := by
  apply Nat.eq_of_testBit_eq
  intro i
  rw [Nat.testBit_mod_two_pow, Nat.zero_testBit]
  by_cases h : i < c
  · simp [h, hlow i h]
  · simp [h]

theorem testBit_pred_high (b c j : Nat) (hb : b.testBit c = true) (hj : c < j) :
    (b - 1).testBit j = b.testBit j := by
  have hmod : b % 2 ^ j ≠ 0 := by
    intro h0
    have hmb := Nat.testBit_mod_two_pow b j c
    rw [h0, Nat.zero_testBit, hb] at hmb
    simp [hj] at hmb
  have hpos : 0 < 2 ^ j := Nat.pow_pos (by omega)
  have hq : (b - 1) / 2 ^ j = b / 2 ^ j := by
    set t : Nat := 2 ^ j with ht
    have hdm := Nat.div_add_mod b t
    have hlt : b % t < t := Nat.mod_lt b hpos
    have hsub : b - 1 = t * (b / t) + (b % t - 1) := by omega
    have hdiv : (b % t - 1) / t = 0 := Nat.div_eq_of_lt (by omega)
    rw [hsub, Nat.mul_add_div hpos, hdiv, Nat.add_zero]
  rw [Nat.testBit_to_div_mod, Nat.testBit_to_div_mod, hq]

theorem testBit_pred_at (b c : Nat) (hb : b.testBit c = true)
    (hlow : ∀ j, j < c → b.testBit j = false) :
    (b - 1).testBit c = false := by
  have hmod : b % 2 ^ c = 0 := mod_two_pow_eq_zero_of_low_bits b c hlow
  have hpos : 0 < 2 ^ c := Nat.pow_pos (by omega)
  have hm : b / 2 ^ c % 2 = 1 := by
    rw [Nat.testBit_to_div_mod] at hb
    simpa using hb
  rw [Nat.testBit_to_div_mod]
  generalize ht : (2 : Nat) ^ c = t at hmod hm hpos ⊢
  have hdm := Nat.div_add_mod b t
  have hmpos : 1 ≤ b / t := by
    rcases Nat.eq_zero_or_pos (b / t) with h | h
    · rw [h] at hm
      simp at hm
    · exact h
  have h2 : t * (b / t - 1) + t = t * (b / t) := by
    rw [← Nat.mul_succ]
    congr 1
    omega
  have hsub : b - 1 = t * (b / t - 1) + (t - 1) := by omega
  have hdiv : (t - 1) / t = 0 := Nat.div_eq_of_lt (by omega)
  rw [hsub, Nat.mul_add_div hpos, hdiv]
  simp only [Nat.add_zero, decide_eq_false_iff_not]
  generalize hq : b / t = q at hm ⊢
  omega

theorem testBit_lowMask (k j : Nat) : (lowMask k).testBit j = decide (j < k) :=
  Nat.testBit_two_pow_sub_one k j

theorem testBit_not32 (x j : Nat) (hj : j < 32) :
    (not32 x).testBit j = !x.testBit j := by
  unfold not32
  rw [Nat.testBit_xor, Nat.testBit_two_pow_sub_one]
  simp [hj]

/-- One step of the "while (bits) { hit = ctz; ...; bits &= bits - 1 }"
loop: the set-bit positions of `bits` are the lowest bit followed by the
set-bit positions of `bits & (bits - 1)`, and the mask strictly
decreases. -/
theorem bitIdx_clear_lowest (b : Nat) (hb0 : b ≠ 0) (hb32 : b < 2 ^ 32) :
    bitIdx b = ctz32 b :: bitIdx (b &&& (b - 1)) ∧ b &&& (b - 1) < b := by
  obtain ⟨hc32, hbc, hlow⟩ := ctz32_spec b hb0 hb32
  have hland : b &&& (b - 1) = b - 2 ^ (ctz32 b) :=
    land_pred_of_least b (ctz32 b) hbc hlow
  have hge : 2 ^ (ctz32 b) ≤ b := Nat.testBit_implies_ge hbc
  have hdec : b &&& (b - 1) < b := by
    rw [hland]
    have : 0 < 2 ^ (ctz32 b) := Nat.pow_pos (by omega)
    omega
  have key : ∀ j, (b &&& (b - 1)).testBit j =
      (b.testBit j && decide (j ≠ ctz32 b)) := by
    intro j
    rw [Nat.testBit_land]
    rcases lt_trichotomy j (ctz32 b) with h | h | h
    · rw [hlow j h]
      rfl
    · rw [h, testBit_pred_at b (ctz32 b) hbc hlow, hbc]
      simp
    · rw [testBit_pred_high b (ctz32 b) j hbc h]
      have : j ≠ ctz32 b := by omega
      simp [this, Bool.and_self]
  have hsplit : List.range 32 =
      List.range' 0 (ctz32 b) ++ (ctz32 b :: List.range' (ctz32 b + 1) (31 - ctz32 b)) := by
    have h1 := List.range'_append 0 (ctz32 b) (32 - ctz32 b) 1
    have h2 := List.range'_succ (ctz32 b) (31 - ctz32 b) 1
    rw [List.range_eq_range']
    rw [show (32 - ctz32 b) = (31 - ctz32 b) + 1 from by omega] at h1
    rw [show (0 + 1 * ctz32 b) = ctz32 b from by omega] at h1
    rw [show ((31 - ctz32 b) + 1 + ctz32 b) = 32 from by omega] at h1
    rw [← h1, h2]
  have hfLb : (List.range' 0 (ctz32 b)).filter (fun j => b.testBit j) = [] := by
    rw [List.filter_eq_nil_iff]
    intro a ha
    rw [List.mem_range'_1] at ha
    simp [hlow a (by omega)]
  have hfLb' : (List.range' 0 (ctz32 b)).filter
      (fun j => (b &&& (b - 1)).testBit j) = [] := by
    rw [List.filter_eq_nil_iff]
    intro a ha
    rw [List.mem_range'_1] at ha
    simp [key a, hlow a (by omega)]
  have hfT : (List.range' (ctz32 b + 1) (31 - ctz32 b)).filter
        (fun j => (b &&& (b - 1)).testBit j) =
      (List.range' (ctz32 b + 1) (31 - ctz32 b)).filter (fun j => b.testBit j) := by
    apply List.filter_congr
    intro x hx
    rw [List.mem_range'_1] at hx
    rw [key x]
    have : x ≠ ctz32 b := by omega
    simp [this]
  refine ⟨?_, hdec⟩
  unfold bitIdx
  rw [hsplit, List.filter_append, List.filter_append, hfLb, hfLb',
    List.filter_cons, List.filter_cons]
  simp [hbc, key (ctz32 b), hfT]
  symm
  apply List.filter_congr
  intro x hx
  rw [List.mem_range'_1] at hx
  rw [testBit_pred_high b (ctz32 b) x hbc (by omega), Bool.and_self]

/-! ### Iteration: RowContainerIterator and skip (RowContainer.cpp:1049-1092)

The arena is a list of allocation ranges (byte sizes); within a range,
rows sit at uniform stride from offset 0 (modelled from the spec's
bump-pointer allocator: a range whose leftover is smaller than one row is
abandoned, so a range of `sz` bytes holds `sz / stride` rows).  Pointers
into a range are (rangeIndex, byteOffset) pairs; `nullptr` is `none`.
`numRows` is the live-row count `numRows_`; `liveMask` records which
allocated slots are live (skip itself never reads it — the source does no
free-bit check while iterating). -/

structure IterContainer where
  runs : List Nat
  fixedRowSize : Nat
  numRows : Nat
  numRowsWithNormalizedKey : Nat
  originalNormalizedKeySize : Nat
  liveMask : List Bool
deriving DecidableEq

/-- RowContainerIterator: the fields used by skip / listPartitionRows. -/
structure RCIterator where
  allocationIndex : Nat
  rowBegin : Option Nat
  endOfRun : Option Nat
  rowNumber : Nat
  normalizedKeysLeft : Nat
  normalizedKeySize : Nat
deriving DecidableEq

/-- A zero-initialized RowContainerIterator. -/
def RCIterator.init : RCIterator :=
  { allocationIndex := 0, rowBegin := none, endOfRun := none, rowNumber := 0,
    normalizedKeysLeft := 0, normalizedKeySize := 0 }

/-- Modelled from the spec: the iterator's current row pointer — the cursor
position (rangeIndex, byteOffset); null once the iterator is terminal.
(currentRow() lives in RowContainer.h; rows carrying a normalized-key
prefix are outside the claims proved here.) -/
def RCIterator.currentRow (iter : RCIterator) : Option (Nat × Nat) :=
  match iter.rowBegin with
  | none => none
  | some rb => some (iter.allocationIndex, rb)

/-- The lazy first-use initialization at the top of skip
(RowContainer.cpp:1052-1061): point the cursor at range 0. -/
def skipInit (C : IterContainer) (iter : RCIterator) : Option RCIterator :=
  match iter.endOfRun with
  | some _ => some iter
  | none =>
      match C.runs[0]? with
      | none => none
      | some sz =>
          some { iter with
            normalizedKeysLeft := C.numRowsWithNormalizedKey
            normalizedKeySize := C.originalNormalizedKeySize
            rowBegin := some 0
            endOfRun := some sz }

/-- The `while (toSkip)` loop of skip (RowContainer.cpp:1075-1087): either
the target row is in the current range (advance the cursor in place) or
consume the rest of the range and move to the next one.  Fuel bounds the
range advances; `none` models running off the arena (rangeAt out of
bounds) or exhausted fuel. -/
def skipLoop (runs : List Nat) (rowSize : Nat) :
    Nat → Nat → Nat → Nat → Nat → Option (Nat × Nat × Nat)
  | 0, _, _, _, _ => none
  | fuel + 1, toSkip, ai, rb, er =>
      if toSkip = 0 then some (ai, rb, er)
      else if toSkip * rowSize ≤ (er - rb) - rowSize then
        some (ai, rb + toSkip * rowSize, er)
      else
        let rowsInRun := (er - rb) / rowSize
        match runs[ai + 1]? with
        | none => none
        | some sz => skipLoop runs rowSize fuel (toSkip - rowsInRun) (ai + 1) 0 sz

/-- The tail of skip after the normalized-key split: run the while loop
with `toSkip` rows of stride `rowSize`, then apply the trailing updates
(RowContainer.cpp:1088-1091) for an original count of `k`. -/
def skipFinish (C : IterContainer) (iter1 : RCIterator) (k toSkip rowSize : Nat) :
    Option RCIterator :=
  match iter1.rowBegin, iter1.endOfRun with
  | some rb, some er =>
      match skipLoop C.runs rowSize (C.runs.length + 1) toSkip
          iter1.allocationIndex rb er with
      | none => none
      | some (ai, rb', er') =>
          some { iter1 with
            allocationIndex := ai
            rowBegin := some rb'
            endOfRun := some er'
            normalizedKeysLeft :=
              if iter1.normalizedKeysLeft ≠ 0 then iter1.normalizedKeysLeft - k
              else iter1.normalizedKeysLeft
            rowNumber := iter1.rowNumber + k }
  | _, _ => none

/-- RowContainer::skip without the normalized-key split branch
(RowContainer.cpp:1070-1074): the body taken by the branch's own nested
call (whose branch condition is always false, so the source's recursion
has depth one). -/
def skipNoBranch (C : IterContainer) (iter0 : RCIterator) (k : Nat) :
    Option RCIterator :=
  match skipInit C iter0 with
  | none => none
  | some iter =>
      if C.numRows ≤ iter.rowNumber + k then
        some { iter with rowNumber := C.numRows, rowBegin := none }
      else
        let rowSize0 := C.fixedRowSize +
          (if 0 < iter.normalizedKeysLeft then C.originalNormalizedKeySize else 0)
        skipFinish C iter k k rowSize0

/-- The body of skip after the lazy initialization: clamp check,
stride selection, optional normalized-key split, then the range walk. -/
def skipPost (C : IterContainer) (iter : RCIterator) (k : Nat) :
    Option RCIterator :=
  if C.numRows ≤ iter.rowNumber + k then
    some { iter with rowNumber := C.numRows, rowBegin := none }
  else
    let rowSize0 := C.fixedRowSize +
      (if 0 < iter.normalizedKeysLeft then C.originalNormalizedKeySize else 0)
    if iter.normalizedKeysLeft ≠ 0 ∧ iter.normalizedKeysLeft < k then
      match skipNoBranch C iter iter.normalizedKeysLeft with
      | none => none
      | some it => skipFinish C it k (k - iter.normalizedKeysLeft) C.fixedRowSize
    else skipFinish C iter k k rowSize0

/-- RowContainer::skip (RowContainer.cpp:1049-1092). -/
def skip (C : IterContainer) (iter0 : RCIterator) (k : Nat) :
    Option RCIterator :=
  match skipInit C iter0 with
  | none => none
  | some iter => skipPost C iter k

/-! Slot addressing: the byte address of the `k`-th allocated slot. -/

/-- Address of slot `k` for stride `s`: walk the ranges, each holding
`sz / s` rows. -/
def slotAddrAux (s : Nat) : List Nat → Nat → Nat → Option (Nat × Nat)
  | [], _, _ => none
  | sz :: rest, ri, k =>
      if k < sz / s then some (ri, k * s)
      else slotAddrAux s rest (ri + 1) (k - sz / s)

def slotAddr (runs : List Nat) (s k : Nat) : Option (Nat × Nat) :=
  slotAddrAux s runs 0 k

/-- Total slot capacity of the arena. -/
def totalCap (runs : List Nat) (s : Nat) : Nat := (runs.map (· / s)).sum

/-- Slot capacity of the ranges before index `ai`. -/
def capsBefore (runs : List Nat) (s ai : Nat) : Nat :=
  ((runs.take ai).map (· / s)).sum

/-- The cursor (ai, rb, er) sits exactly on slot `n`. -/
def CursorAt (runs : List Nat) (s ai rb er n : Nat) : Prop :=
  runs[ai]? = some er ∧
  capsBefore runs s ai ≤ n ∧
  n - capsBefore runs s ai < er / s ∧
  rb = (n - capsBefore runs s ai) * s

/-- The iterator sits on slot `n` with no normalized-key rows pending. -/
def IterAt (C : IterContainer) (n : Nat) (iter : RCIterator) : Prop :=
  iter.rowNumber = n ∧ iter.normalizedKeysLeft = 0 ∧
  ∃ rb er, iter.rowBegin = some rb ∧ iter.endOfRun = some er ∧
    CursorAt C.runs C.fixedRowSize iter.allocationIndex rb er n

/-- Container well-formedness for the iteration theorems: positive stride,
no normalized-key rows, every range holds at least one row, the arena has
at least one range, and the live rows fit in the arena. -/
def WFIter (C : IterContainer) : Prop :=
  0 < C.fixedRowSize ∧ C.numRowsWithNormalizedKey = 0 ∧ C.runs ≠ [] ∧
  (∀ sz ∈ C.runs, C.fixedRowSize ≤ sz) ∧
  C.numRows ≤ totalCap C.runs C.fixedRowSize

theorem capsBefore_succ (runs : List Nat) (s ai er : Nat)
    (h : runs[ai]? = some er) :
    capsBefore runs s (ai + 1) = capsBefore runs s ai + er / s := by
  unfold capsBefore
  rw [List.take_succ, h]
  simp

theorem capsBefore_le_totalCap (runs : List Nat) (s ai : Nat) :
    capsBefore runs s ai ≤ totalCap runs s := by
  unfold capsBefore totalCap
  conv_rhs => rw [← List.take_append_drop ai runs]
  rw [List.map_append, List.sum_append]
  omega

theorem lt_length_of_capsBefore_lt (runs : List Nat) (s m : Nat)
    (h : capsBefore runs s m < totalCap runs s) : m < runs.length := by
  by_contra hm
  push_neg at hm
  unfold capsBefore totalCap at h
  rw [List.take_of_length_le hm] at h
  omega

/-- The while loop of skip lands exactly on the target slot. -/
theorem skipLoop_walk (runs : List Nat) (s : Nat) (hs : 0 < s)
    (hall : ∀ sz ∈ runs, s ≤ sz) :
    ∀ fuel ai rb er n t,
      runs.length + 1 - ai ≤ fuel →
      CursorAt runs s ai rb er n →
      n + t < totalCap runs s →
      ∃ ai' rb' er', skipLoop runs s fuel t ai rb er = some (ai', rb', er') ∧
        CursorAt runs s ai' rb' er' (n + t) := by
  intro fuel
  induction fuel with
  | zero =>
      intro ai rb er n t hfuel hcur _
      exfalso
      obtain ⟨hrun, _, _, _⟩ := hcur
      have hai : ai < runs.length := by
        by_contra h
        push_neg at h
        rw [List.getElem?_eq_none h] at hrun
        cases hrun
      omega
  | succ fuel ih =>
      intro ai rb er n t hfuel hcur htot
      obtain ⟨hrun, hcb, hloc, hrb⟩ := hcur
      by_cases ht0 : t = 0
      · subst ht0
        exact ⟨ai, rb, er, by simp [skipLoop],
          ⟨hrun, hcb, by omega, by rw [hrb, Nat.add_zero]⟩⟩
      · by_cases hbreak : t * s ≤ (er - rb) - s
        · refine ⟨ai, rb + t * s, er, by simp [skipLoop, ht0, hbreak], hrun,
            by omega, ?_, ?_⟩
          · -- stayed in the range: n + t - caps < er / s
            have hA : 0 < t * s := Nat.mul_pos (by omega) hs
            have her : rb + t * s + s ≤ er := by omega
            have hdiv : (n - capsBefore runs s ai) + t + 1 ≤ er / s := by
              rw [Nat.le_div_iff_mul_le hs]
              have hexp : ((n - capsBefore runs s ai) + t + 1) * s =
                  (n - capsBefore runs s ai) * s + t * s + s := by ring
              rw [hexp, ← hrb]
              exact her
            omega
          · have h1 : n + t - capsBefore runs s ai =
                (n - capsBefore runs s ai) + t := by omega
            rw [h1, Nat.add_mul, ← hrb]
        · -- consume the rest of the range and advance
          obtain ⟨d, hd⟩ : ∃ d, er / s = (n - capsBefore runs s ai) + d :=
            ⟨er / s - (n - capsBefore runs s ai), by omega⟩
          have hdm := Nat.div_add_mod er s
          have hmod : er % s < s := Nat.mod_lt er hs
          have hexp : s * (er / s) = s * (n - capsBefore runs s ai) + s * d := by
            rw [hd]
            ring
          have hrb' : s * (n - capsBefore runs s ai) = rb := by
            rw [hrb]
            ring
          have herrb : er - rb = s * d + er % s := by omega
          have hrowsInRun : (er - rb) / s = d := by
            rw [herrb, Nat.mul_add_div hs, Nat.div_eq_of_lt hmod, Nat.add_zero]
          have hd1 : 1 ≤ d := by omega
          have htd : d ≤ t := by
            by_contra hc
            push_neg at hc
            have h3 : (t + 1) * s ≤ d * s := Nat.mul_le_mul_right s hc
            have h4 : (t + 1) * s = t * s + s := by ring
            have h5 : d * s = s * d := by ring
            omega
          have hcb1 : capsBefore runs s (ai + 1) =
              capsBefore runs s ai + er / s := capsBefore_succ runs s ai er hrun
          have hnd : n + d = capsBefore runs s (ai + 1) := by omega
          have hlt : ai + 1 < runs.length := by
            apply lt_length_of_capsBefore_lt runs s
            omega
          obtain ⟨sz, hsz⟩ : ∃ sz, runs[ai + 1]? = some sz :=
            ⟨runs[ai + 1], List.getElem?_eq_getElem hlt⟩
          have hszmem : runs[ai + 1] ∈ runs := List.getElem_mem hlt
          have hszge : s ≤ sz := by
            have := hall _ hszmem
            rw [List.getElem?_eq_getElem hlt] at hsz
            cases hsz
            exact this
          have hcap1 : 1 ≤ sz / s := by
            rw [Nat.le_div_iff_mul_le hs, Nat.one_mul]
            exact hszge
          have hcur1 : CursorAt runs s (ai + 1) 0 sz (n + d) := by
            refine ⟨hsz, by omega, ?_, ?_⟩
            · rw [show n + d - capsBefore runs s (ai + 1) = 0 from by omega]
              omega
            · rw [show n + d - capsBefore runs s (ai + 1) = 0 from by omega,
                Nat.zero_mul]
          obtain ⟨ai', rb', er', hloop, hcur'⟩ :=
            ih (ai + 1) 0 sz (n + d) (t - d) (by omega) hcur1 (by omega)
          refine ⟨ai', rb', er', ?_, ?_⟩
          · show skipLoop runs s (fuel + 1) t ai rb er = _
            rw [skipLoop]
            simp only [ht0, hbreak, if_false, hsz, hrowsInRun]
            exact hloop
          · have heq : n + d + (t - d) = n + t := by omega
            rwa [heq] at hcur'

/-- Skip from a consistent (or freshly initialized) iterator: an
out-of-range count clamps rowNumber to numRows and nulls the cursor; an
in-range count lands the cursor exactly on slot `n + k`. -/
theorem skip_spec_core (C : IterContainer) (hwf : WFIter C)
    (iter0 iterI : RCIterator) (n k : Nat)
    (hinit : skipInit C iter0 = some iterI) (hit : IterAt C n iterI) :
    (C.numRows ≤ n + k →
      skip C iter0 k =
        some { iterI with rowNumber := C.numRows, rowBegin := none }) ∧
    (n + k < C.numRows →
      ∃ iter', skip C iter0 k = some iter' ∧ IterAt C (n + k) iter') := by
  obtain ⟨hs, hnk0, hne, hall, hcap⟩ := hwf
  obtain ⟨hrn, hnkl, rb, er, hrb, her, hcur⟩ := hit
  have hskip : skip C iter0 k = skipPost C iterI k := by
    unfold skip
    rw [hinit]
  constructor
  · intro hge
    rw [hskip]
    unfold skipPost
    rw [if_pos (by rw [hrn]; omega)]
  · intro hlt
    rw [hskip]
    unfold skipPost
    rw [if_neg (by rw [hrn]; omega)]
    simp only [hnkl, ne_eq, not_true_eq_false, false_and, if_false,
      Nat.lt_irrefl, Nat.add_zero]
    unfold skipFinish
    rw [hrb, her]
    obtain ⟨ai', rb', er', hloop, hcur'⟩ :=
      skipLoop_walk C.runs C.fixedRowSize hs hall (C.runs.length + 1)
        iterI.allocationIndex rb er n k (Nat.sub_le _ _) hcur (by omega)
    simp only [hloop]
    refine ⟨_, rfl, ?_, ?_, rb', er', rfl, rfl, ?_⟩
    · show iterI.rowNumber + k = n + k
      rw [hrn]
    · show (if iterI.normalizedKeysLeft ≠ 0 then iterI.normalizedKeysLeft - k
        else iterI.normalizedKeysLeft) = 0
      rw [hnkl]
      simp
    · exact hcur'

/-! ### C4: skip from a zero-initialized iterator -/

theorem capsBefore_le_succ (runs : List Nat) (s ai : Nat) :
    capsBefore runs s ai ≤ capsBefore runs s (ai + 1) := by
  unfold capsBefore
  rw [List.take_succ, List.map_append, List.sum_append]
  omega

/-- Walking the slot-address computation past the first `ai` ranges. -/
theorem slotAddrAux_drop (runs : List Nat) (s : Nat) :
    ∀ ai n, capsBefore runs s ai ≤ n →
      slotAddrAux s runs 0 n =
        slotAddrAux s (runs.drop ai) ai (n - capsBefore runs s ai) := by
  intro ai
  induction ai with
  | zero =>
      intro n _
      simp [capsBefore]
  | succ ai ih =>
      intro n h
      have hmono := capsBefore_le_succ runs s ai
      rw [ih n (le_trans hmono h)]
      by_cases hai : ai < runs.length
      · have hgd : runs[ai] :: runs.drop (ai + 1) = runs.drop ai :=
          List.getElem_cons_drop runs ai hai
        have hrun : runs[ai]? = some runs[ai] := List.getElem?_eq_getElem hai
        have hcb : capsBefore runs s (ai + 1) =
            capsBefore runs s ai + runs[ai] / s :=
          capsBefore_succ runs s ai runs[ai] hrun
        rw [← hgd]
        simp only [slotAddrAux]
        rw [if_neg (by omega)]
        have harg : n - capsBefore runs s ai - runs[ai] / s =
            n - capsBefore runs s (ai + 1) := by omega
        rw [harg]
      · push_neg at hai
        rw [List.drop_eq_nil_of_le hai,
          List.drop_eq_nil_of_le (le_trans hai (Nat.le_succ _))]
        rfl

/-- A cursor sitting on slot `n` agrees with the slot-address map. -/
theorem slotAddr_of_cursorAt (runs : List Nat) (s ai rb er n : Nat)
    (hcur : CursorAt runs s ai rb er n) :
    slotAddr runs s n = some (ai, rb) := by
  obtain ⟨hrun, hcb, hloc, hrb⟩ := hcur
  have hai : ai < runs.length := by
    by_contra h
    push_neg at h
    rw [List.getElem?_eq_none h] at hrun
    cases hrun
  have hgd : runs[ai] :: runs.drop (ai + 1) = runs.drop ai :=
    List.getElem_cons_drop runs ai hai
  have hget : runs[ai] = er := by
    rw [List.getElem?_eq_getElem hai] at hrun
    cases hrun
    rfl
  unfold slotAddr
  rw [slotAddrAux_drop runs s ai n hcb, ← hgd, hget]
  simp only [slotAddrAux]
  rw [if_pos hloc, ← hrb]

/-- The iterator produced by the lazy initialization for first range size
`sz` (RowContainer.cpp:1052-1061 applied to a zero-initialized iterator). -/
def initIter (C : IterContainer) (sz : Nat) : RCIterator :=
  { allocationIndex := 0, rowBegin := some 0, endOfRun := some sz,
    rowNumber := 0, normalizedKeysLeft := C.numRowsWithNormalizedKey,
    normalizedKeySize := C.originalNormalizedKeySize }

/-- On a well-formed container, lazy initialization of a zero-initialized
iterator succeeds and leaves the cursor on slot 0. -/
theorem skipInit_init_spec (C : IterContainer) (hwf : WFIter C) :
    ∃ sz, skipInit C RCIterator.init = some (initIter C sz) ∧
      IterAt C 0 (initIter C sz) := by
  obtain ⟨hs, hnk0, hne, hall, hcap⟩ := hwf
  have hlen : 0 < C.runs.length := List.length_pos.mpr hne
  obtain ⟨sz, hsz⟩ : ∃ sz, C.runs[0]? = some sz :=
    ⟨C.runs[0], List.getElem?_eq_getElem hlen⟩
  have hszge : C.fixedRowSize ≤ sz := by
    have hmem : C.runs[0] ∈ C.runs := List.getElem_mem hlen
    rw [List.getElem?_eq_getElem hlen] at hsz
    cases hsz
    exact hall _ hmem
  refine ⟨sz, ?_, ?_⟩
  · unfold skipInit
    simp only [RCIterator.init, hsz, initIter]
  · have hcb0 :
        capsBefore C.runs C.fixedRowSize (initIter C sz).allocationIndex = 0 :=
      rfl
    have hdiv : 0 < sz / C.fixedRowSize := Nat.div_pos hszge hs
    refine ⟨rfl, hnk0, 0, sz, rfl, rfl, hsz, Nat.le_refl 0, ?_, ?_⟩
    · rw [hcb0]
      omega
    · rw [hcb0]
      simp

/-- C4: For skip(iter, k) starting from a zero-initialized iterator on a
well-formed container: if k < numRows then the cursor afterwards sits
exactly on allocated slot k of the arena (insertion order over ALL
allocated slots — the walk is raw pointer arithmetic and does not ignore
freed slots), with rowNumber = k; if numRows ≤ k the skip is out of
bounds: rowNumber is clamped to numRows and the cursor is set to null. -/
theorem skip_zero_init_spec (C : IterContainer) (hwf : WFIter C) (k : Nat) :
    (k < C.numRows →
      ∃ iter', skip C RCIterator.init k = some iter' ∧
        iter'.rowNumber = k ∧
        iter'.currentRow = slotAddr C.runs C.fixedRowSize k) ∧
    (C.numRows ≤ k →
      ∃ iter', skip C RCIterator.init k = some iter' ∧
        iter'.rowNumber = C.numRows ∧ iter'.currentRow = none) := by
  obtain ⟨sz, hini, hat⟩ := skipInit_init_spec C hwf
  have hcore := skip_spec_core C hwf RCIterator.init (initIter C sz) 0 k hini hat
  constructor
  · intro hk
    obtain ⟨iter', hskip, hat'⟩ := hcore.2 (by omega)
    obtain ⟨hrn, hnkl, rb, er, hrb, her, hcur⟩ := hat'
    rw [Nat.zero_add] at hrn
    have haddr := slotAddr_of_cursorAt C.runs C.fixedRowSize
      iter'.allocationIndex rb er (0 + k) hcur
    rw [Nat.zero_add] at haddr
    refine ⟨iter', hskip, hrn, ?_⟩
    simp only [RCIterator.currentRow, hrb]
    rw [haddr]
  · intro hk
    exact ⟨_, hcore.1 (by omega), rfl, rfl⟩

/-- Modelled from the spec: the slot indices of the live rows, in
insertion (allocation) order, from the live mask over allocated slots. -/
def liveSlots (mask : List Bool) : List Nat :=
  (List.range mask.length).filter (fun i => mask.getD i false)

/-- Modelled from the spec: the address of the k-th inserted live row,
ignoring freed slots. -/
def kthLiveRowAddr (C : IterContainer) (k : Nat) : Option (Nat × Nat) :=
  match (liveSlots C.liveMask)[k]? with
  | none => none
  | some slot => slotAddr C.runs C.fixedRowSize slot

/-- A container of four allocated slots (one 32-byte range, 8-byte rows)
whose second slot has been freed: three live rows at slots 0, 2 and 3. -/
def C4ce : IterContainer :=
  { runs := [32], fixedRowSize := 8, numRows := 3,
    numRowsWithNormalizedKey := 0, originalNormalizedKeySize := 0,
    liveMask := [true, false, true, true] }

/-- C4 (counterexample): skip does NOT ignore freed slots.  On a container
with live rows at slots 0, 2, 3 (slot 1 freed), skip(iter, 1) from a
zero-initialized iterator lands on byte offset 8 — the freed slot 1 —
whereas the 1st live row in insertion order ignoring freed slots (slot 2,
or slot 0 under 1-based counting) is at offset 16 (resp. 0), and
1 ≤ numRows so the claim's bound holds. -/
theorem skip_ignores_freed_slots_counterexample :
    1 ≤ C4ce.numRows ∧
    (skip C4ce RCIterator.init 1).map RCIterator.currentRow =
      some (some (0, 8)) ∧
    kthLiveRowAddr C4ce 1 = some (0, 16) ∧
    kthLiveRowAddr C4ce 0 = some (0, 0) := by
  decide

/-- A fully live container: one 32-byte range of 8-byte rows, all four
slots live. -/
def C4w : IterContainer :=
  { runs := [32], fixedRowSize := 8, numRows := 4,
    numRowsWithNormalizedKey := 0, originalNormalizedKeySize := 0,
    liveMask := [true, true, true, true] }

/-! ### C2: listPartitionRows (RowContainer.cpp:1102-1171)

The partition table is the byte array of `RowPartitions`; its allocation
is modelled as a single run of `roundUp numRows kBatch` bytes starting at
byte 0, so `findRun(startRow)` yields offset `startRow` and the offset in
the run tracks `startRow` (the two variables advance in lockstep by
kBatch).  Bytes past the table (reads of the partly-filled last batch)
are modelled as 0; the `atEnd` masking at RowContainer.cpp:1140-1143
clears the corresponding lanes, so their value never reaches the output.
Output pointers are written as cursor addresses (`currentRow`). -/

/-- Byte `i` of the partition table. -/
def pByte (P : List Nat) (i : Nat) : Nat := P.getD i 0

/-- simd::toBitMask of the 32-lane byte comparison against `partition`
(RowContainer.cpp:1133-1136). -/
def batchMask (P : List Nat) (p startRow : Nat) : Nat :=
  maskOf (fun j => decide (pByte P (startRow + j) = p)) 32

/-- The `while (bits)` loop (RowContainer.cpp:1145-1156): emit the row of
each set bit (lowest first), skipping the iterator to it; on reaching
maxRows, skip one further row and return (.inr); when the mask is
exhausted hand back the state (.inl). -/
def lprInner (C : IterContainer) (m startRow : Nat) :
    Nat → Nat → RCIterator → Nat → List (Option (Nat × Nat)) →
    Option (Sum (RCIterator × Nat × List (Option (Nat × Nat)))
      (RCIterator × List (Option (Nat × Nat))))
  | 0, _, _, _, _ => none
  | fuel + 1, bits, iter, numResults, out =>
      if bits = 0 then some (.inl (iter, numResults, out))
      else
        match skip C iter (ctz32 bits + startRow - iter.rowNumber) with
        | none => none
        | some iter1 =>
            if numResults + 1 = m then
              match skip C iter1 1 with
              | none => none
              | some iter2 => some (.inr (iter2, out ++ [iter1.currentRow]))
            else
              lprInner C m startRow fuel (bits &&& (bits - 1)) iter1
                (numResults + 1) (out ++ [iter1.currentRow])

/-- The `for (; offsetInRun < runEnd; offsetInRun += kBatch)` loop
(RowContainer.cpp:1132-1168) over the single partition run: compute the
batch mask (masked by firstBatchMask, and by lowMask past the last row),
run the bit loop, then either return (maxRows reached or atEnd) or align
the iterator to the next batch and continue.  The Bool in the result is
true when the function returned, false when the run was exhausted. -/
def lprFor (C : IterContainer) (P : List Nat) (p m runEnd : Nat) :
    Nat → Nat → Nat → RCIterator → Nat → List (Option (Nat × Nat)) →
    Option (RCIterator × Nat × List (Option (Nat × Nat)) × Bool)
  | 0, _, _, _, _, _ => none
  | fuel + 1, startRow, firstBatchMask, iter, numResults, out =>
      if runEnd ≤ startRow then some (iter, numResults, out, false)
      else
        match lprInner C m startRow 33
            (if C.numRows ≤ startRow + kBatch then
              (batchMask P p startRow &&& firstBatchMask) &&&
                lowMask (C.numRows - startRow)
            else batchMask P p startRow &&& firstBatchMask)
            iter numResults out with
        | none => none
        | some (.inr (iter2, out2)) => some (iter2, m, out2, true)
        | some (.inl (iter1, numResults1, out1)) =>
            if C.numRows ≤ startRow + kBatch then
              some ({ iter1 with rowNumber := C.numRows }, numResults1, out1,
                true)
            else
              if iter1.rowNumber ≠ startRow + kBatch then
                match skip C iter1 (startRow + kBatch - iter1.rowNumber) with
                | none => none
                | some iter2 =>
                    lprFor C P p m runEnd fuel (startRow + kBatch)
                      (lowMask 32) iter2 numResults1 out1
              else
                lprFor C P p m runEnd fuel (startRow + kBatch) (lowMask 32)
                  iter1 numResults1 out1

/-- The `while (numResults < maxRows && iter.rowNumber < numRows_)` loop
(RowContainer.cpp:1119-1169): recompute the batch start and the
first-batch mask from the iterator, then run the batch loop. -/
def lprWhile (C : IterContainer) (P : List Nat) (p m runEnd : Nat) :
    Nat → RCIterator → Nat → List (Option (Nat × Nat)) →
    Option (RCIterator × List (Option (Nat × Nat)))
  | 0, _, _, _ => none
  | fuel + 1, iter, numResults, out =>
      if numResults < m ∧ iter.rowNumber < C.numRows then
        match lprFor C P p m runEnd (runEnd / kBatch + 1)
            (iter.rowNumber / kBatch * kBatch)
            (not32 (lowMask (iter.rowNumber - iter.rowNumber / kBatch * kBatch)))
            iter numResults out with
        | none => none
        | some (iter1, numResults1, out1, returned) =>
            if returned then some (iter1, out1)
            else lprWhile C P p m runEnd fuel iter1 numResults1 out1
      else some (iter, out)

/-- RowContainer::listPartitionRows (RowContainer.cpp:1102-1171): size
check, empty-container early return, then the scan loop.  The result is
the list of written row pointers (its length is the returned count) and
the mutated iterator. -/
def listPartitionRows (C : IterContainer) (P : List Nat) (p m : Nat)
    (iter : RCIterator) : Option (RCIterator × List (Option (Nat × Nat))) :=
  if P.length ≠ C.numRows then none
  else if C.numRows = 0 then some (iter, [])
  else lprWhile C P p m (roundUp C.numRows kBatch) (C.numRows + 1 + 1) iter 0 []

/-- Repeated calls with the same iterator, one per element of `ms`
(the maxRows argument of each call), concatenating the outputs. -/
def runCalls (C : IterContainer) (P : List Nat) (p : Nat) :
    List Nat → RCIterator → Option (RCIterator × List (Option (Nat × Nat)))
  | [], iter => some (iter, [])
  | m :: ms, iter =>
      match listPartitionRows C P p m iter with
      | none => none
      | some (iter1, out1) =>
          match runCalls C P p ms iter1 with
          | none => none
          | some (iter2, out2) => some (iter2, out1 ++ out2)

/-- The row indices not below `r` whose partition byte is `p`,
ascending. -/
def matchesFrom (P : List Nat) (p numRows r : Nat) : List Nat :=
  (List.range numRows).filter
    (fun i => decide (r ≤ i) && decide (pByte P i = p))

/-- The iterator reads as row `n` and (after the lazy initialization that
any skip performs first) its cursor sits on slot `n`. -/
def StateAt (C : IterContainer) (n : Nat) (iter : RCIterator) : Prop :=
  iter.rowNumber = n ∧
  ∃ iterI, skipInit C iter = some iterI ∧ IterAt C n iterI

/-- A state from which the next call resumes at row `r`: either a live
cursor on `r`, or the terminal state (rowNumber pinned at numRows). -/
def ResumeAt (C : IterContainer) (iter : RCIterator) (r : Nat) : Prop :=
  (r < C.numRows ∧ StateAt C r iter) ∨
  (C.numRows ≤ r ∧ iter.rowNumber = C.numRows)

/-! Toolbox for the scan proof. -/

theorem eq_of_sorted_mem {l1 l2 : List Nat} (h1 : l1.Pairwise (· < ·))
    (h2 : l2.Pairwise (· < ·)) (hm : ∀ x, x ∈ l1 ↔ x ∈ l2) : l1 = l2 := by
  have hn1 : l1.Nodup := h1.imp (fun h => Nat.ne_of_lt h)
  have hn2 : l2.Nodup := h2.imp (fun h => Nat.ne_of_lt h)
  exact List.eq_of_perm_of_sorted ((List.perm_ext_iff_of_nodup hn1 hn2).mpr hm)
    (h1.imp (fun h => Nat.le_of_lt h)) (h2.imp (fun h => Nat.le_of_lt h))

theorem mem_matchesFrom {P : List Nat} {p N r x : Nat} :
    x ∈ matchesFrom P p N r ↔ r ≤ x ∧ x < N ∧ pByte P x = p := by
  simp only [matchesFrom, List.mem_filter, List.mem_range, Bool.and_eq_true,
    decide_eq_true_eq]
  tauto

theorem matchesFrom_pairwise (P : List Nat) (p N r : Nat) :
    (matchesFrom P p N r).Pairwise (· < ·) :=
  List.Pairwise.sublist (List.filter_sublist _) (List.pairwise_lt_range N)

theorem bitIdx_pairwise (bits : Nat) : (bitIdx bits).Pairwise (· < ·) :=
  List.Pairwise.sublist (List.filter_sublist _) (List.pairwise_lt_range 32)

theorem maskOf_lt (f : Nat → Bool) (w : Nat) : maskOf f w < 2 ^ w := by
  induction w generalizing f with
  | zero => simp [maskOf]
  | succ w ih =>
      rw [maskOf]
      have := ih (fun j => f (j + 1))
      have hp : 2 ^ (w + 1) = 2 * 2 ^ w := by ring
      cases f 0 <;> simp <;> omega

theorem not32_lowMask_zero : not32 (lowMask 0) = lowMask 32 := by
  unfold not32 lowMask
  norm_num

/-- The rows emitted by one 32-row batch: the set bits of the masked
batch mask are exactly the matching rows of the window that are not
below the iterator position `n`. -/
theorem batch_window (P : List Nat) (p N n startRow : Nat)
    (hsn : startRow ≤ n) (hlt : n - startRow < 32) :
    ((bitIdx (if N ≤ startRow + kBatch then
        (batchMask P p startRow &&& not32 (lowMask (n - startRow))) &&&
          lowMask (N - startRow)
      else batchMask P p startRow &&& not32 (lowMask (n - startRow)))).map
        (fun j => startRow + j)) =
      (matchesFrom P p N n).filter (fun i => decide (i < startRow + 32)) := by
  have hkb : kBatch = 32 := rfl
  have htb : ∀ j, j < 32 →
      (if N ≤ startRow + kBatch then
        (batchMask P p startRow &&& not32 (lowMask (n - startRow))) &&&
          lowMask (N - startRow)
      else batchMask P p startRow &&& not32 (lowMask (n - startRow))).testBit j =
      (decide (pByte P (startRow + j) = p) && decide (n - startRow ≤ j) &&
        decide (startRow + j < N)) := by
    intro j hj
    have hbm : (batchMask P p startRow).testBit j =
        decide (pByte P (startRow + j) = p) := by
      rw [batchMask, testBit_maskOf]
      simp [hj]
    have hnm : (not32 (lowMask (n - startRow))).testBit j =
        !decide (j < n - startRow) := by
      rw [testBit_not32 _ j hj, testBit_lowMask]
    by_cases hend : N ≤ startRow + kBatch
    · rw [if_pos hend, Nat.testBit_land, Nat.testBit_land, hbm, hnm,
        testBit_lowMask]
      have h1 : decide (j < N - startRow) = decide (startRow + j < N) := by
        by_cases h : startRow + j < N <;> simp [h] <;> omega
      have h2 : (!decide (j < n - startRow)) = decide (n - startRow ≤ j) := by
        by_cases h : j < n - startRow <;> simp [h] <;> omega
      rw [h1, h2]
    · rw [if_neg hend, Nat.testBit_land, hbm, hnm]
      rw [hkb] at hend
      have h1 : decide (startRow + j < N) = true := by
        simp
        omega
      have h2 : (!decide (j < n - startRow)) = decide (n - startRow ≤ j) := by
        by_cases h : j < n - startRow <;> simp [h] <;> omega
      rw [h1, h2, Bool.and_true]
  apply eq_of_sorted_mem
  · exact List.Pairwise.map _ (fun a b h => by omega) (bitIdx_pairwise _)
  · exact List.Pairwise.sublist (List.filter_sublist _) (matchesFrom_pairwise P p N n)
  · intro x
    constructor
    · intro hx
      obtain ⟨j, hj, hxj⟩ := List.mem_map.mp hx
      rw [bitIdx, List.mem_filter, List.mem_range] at hj
      obtain ⟨hj32, hjt⟩ := hj
      rw [htb j hj32] at hjt
      simp only [Bool.and_eq_true, decide_eq_true_eq] at hjt
      rw [List.mem_filter, mem_matchesFrom]
      subst hxj
      refine ⟨⟨by omega, by omega, hjt.1.1⟩, by simp; omega⟩
    · intro hx
      rw [List.mem_filter, mem_matchesFrom] at hx
      obtain ⟨⟨hrx, hxN, hpx⟩, hxw⟩ := hx
      simp only [decide_eq_true_eq] at hxw
      refine List.mem_map.mpr ⟨x - startRow, ?_, by omega⟩
      rw [bitIdx, List.mem_filter, List.mem_range]
      refine ⟨by omega, ?_⟩
      rw [htb _ (by omega)]
      have hxx : startRow + (x - startRow) = x := by omega
      rw [hxx]
      simp only [Bool.and_eq_true, decide_eq_true_eq]
      exact ⟨⟨hpx, by omega⟩, by omega⟩

theorem bitIdx_zero : bitIdx 0 = [] := by
  simp [bitIdx, Nat.zero_testBit]

theorem StateAt_init (C : IterContainer) (hwf : WFIter C) :
    StateAt C 0 RCIterator.init := by
  obtain ⟨sz, hini, hat⟩ := skipInit_init_spec C hwf
  exact ⟨rfl, initIter C sz, hini, hat⟩

/-- skip from a consistent state: the in-range case lands on slot `n + d`
with the matching row pointer; the out-of-range case clamps and nulls. -/
theorem skip_stateAt (C : IterContainer) (hwf : WFIter C) (iter : RCIterator)
    (n d : Nat) (hst : StateAt C n iter) :
    (n + d < C.numRows →
      ∃ iter', skip C iter d = some iter' ∧ StateAt C (n + d) iter' ∧
        iter'.currentRow = slotAddr C.runs C.fixedRowSize (n + d)) ∧
    (C.numRows ≤ n + d →
      ∃ iter', skip C iter d = some iter' ∧ iter'.rowNumber = C.numRows ∧
        iter'.rowBegin = none) := by
  obtain ⟨hrn, iterI, hinit, hat⟩ := hst
  have hcore := skip_spec_core C hwf iter iterI n d hinit hat
  constructor
  · intro hd
    obtain ⟨iter', hskip, hat'⟩ := hcore.2 hd
    obtain ⟨hrn', hnkl', rb, er, hrb, her, hcur⟩ := hat'
    have haddr := slotAddr_of_cursorAt C.runs C.fixedRowSize
      iter'.allocationIndex rb er (n + d) hcur
    have hini' : skipInit C iter' = some iter' := by
      simp only [skipInit, her]
    refine ⟨iter', hskip,
      ⟨hrn', iter', hini', hrn', hnkl', rb, er, hrb, her, hcur⟩, ?_⟩
    simp only [RCIterator.currentRow, hrb]
    rw [haddr]
  · intro hd
    exact ⟨_, hcore.1 hd, rfl, rfl⟩

/-- The bit loop emits the masked batch's rows ascending; it hands the
state back when the mask is exhausted short of the quota, and returns
(skipping one row further) when the quota is reached. -/
theorem lprInner_spec (C : IterContainer) (hwf : WFIter C) (m startRow : Nat) :
    ∀ fuel bits iter n numResults out,
      (bitIdx bits).length + 1 ≤ fuel →
      bits < 2 ^ 32 →
      StateAt C n iter →
      (∀ j ∈ bitIdx bits, n ≤ startRow + j ∧ startRow + j < C.numRows) →
      numResults < m →
      (numResults + (bitIdx bits).length < m →
        ∃ iter', lprInner C m startRow fuel bits iter numResults out =
            some (.inl (iter', numResults + (bitIdx bits).length,
              out ++ ((bitIdx bits).map (fun j => startRow + j)).map
                (fun i => slotAddr C.runs C.fixedRowSize i))) ∧
          StateAt C (((bitIdx bits).map (fun j => startRow + j)).getLastD n)
            iter') ∧
      (m ≤ numResults + (bitIdx bits).length →
        ∃ iter' t,
          ((bitIdx bits).map (fun j => startRow + j))[m - numResults - 1]? =
            some t ∧
          lprInner C m startRow fuel bits iter numResults out =
            some (.inr (iter', out ++
              (((bitIdx bits).map (fun j => startRow + j)).take
                (m - numResults)).map
                (fun i => slotAddr C.runs C.fixedRowSize i))) ∧
          ResumeAt C iter' (t + 1)) := by
  intro fuel
  induction fuel with
  | zero =>
      intro bits iter n numResults out hfuel
      omega
  | succ fuel ih =>
      intro bits iter n numResults out hfuel hb32 hst hmem hnr
      by_cases hb0 : bits = 0
      · subst hb0
        rw [bitIdx_zero]
        constructor
        · intro _
          refine ⟨iter, ?_, hst⟩
          simp [lprInner]
        · intro habs
          simp only [List.length_nil] at habs
          omega
      · obtain ⟨hcons, hdec⟩ := bitIdx_clear_lowest bits hb0 hb32
        have hhead : ctz32 bits ∈ bitIdx bits := by
          rw [hcons]
          exact List.mem_cons_self _ _
        obtain ⟨hnle, hltN⟩ := hmem _ hhead
        have hrn := hst.1
        have hrw : n + (ctz32 bits + startRow - n) = startRow + ctz32 bits := by
          omega
        have hsk := (skip_stateAt C hwf iter n
          (ctz32 bits + startRow - n) hst).1 (by omega)
        rw [hrw] at hsk
        obtain ⟨iter1, hskip1, hst1, hcr1⟩ := hsk
        have hstep : ∀ rest,
            lprInner C m startRow (fuel + 1) bits iter numResults rest =
            (if numResults + 1 = m then
              match skip C iter1 1 with
              | none => none
              | some iter2 => some (.inr (iter2, rest ++ [iter1.currentRow]))
            else
              lprInner C m startRow fuel (bits &&& (bits - 1)) iter1
                (numResults + 1) (rest ++ [iter1.currentRow])) := by
          intro rest
          simp only [lprInner, hb0, if_false, hrn, hskip1]
        constructor
        · intro hroom
          rw [hcons] at hroom
          simp only [List.length_cons] at hroom
          have hm1 : ¬(numResults + 1 = m) := by omega
          have hrest : ∀ j ∈ bitIdx (bits &&& (bits - 1)),
              startRow + ctz32 bits ≤ startRow + j ∧ startRow + j < C.numRows := by
            intro j hj
            have hjmem : j ∈ bitIdx bits := by
              rw [hcons]
              exact List.mem_cons_of_mem _ hj
            have hlt := (List.pairwise_cons.mp (hcons ▸ bitIdx_pairwise bits)).1
              j hj
            exact ⟨by omega, (hmem _ hjmem).2⟩
          have hihc := (ih (bits &&& (bits - 1)) iter1 (startRow + ctz32 bits)
            (numResults + 1) (out ++ [iter1.currentRow])
            (by rw [hcons] at hfuel; simp only [List.length_cons] at hfuel; omega)
            (by omega) hst1 hrest (by omega)).1 (by omega)
          obtain ⟨iter', heq, hst'⟩ := hihc
          refine ⟨iter', ?_, ?_⟩
          · rw [hstep, if_neg hm1, heq, hcons]
            simp only [List.map_cons, List.length_cons, List.append_assoc,
              List.singleton_append, hcr1]
            have harith : numResults + ((bitIdx (bits &&& (bits - 1))).length + 1) =
                numResults + 1 + (bitIdx (bits &&& (bits - 1))).length := by
              omega
            rw [harith]
          · rw [hcons]
            simp only [List.map_cons, List.getLastD_cons]
            exact hst'
        · intro hquota
          by_cases hm1 : numResults + 1 = m
          · have hsk1 := skip_stateAt C hwf iter1 (startRow + ctz32 bits) 1 hst1
            have htake : ((bitIdx bits).map (fun j => startRow + j)).take
                (m - numResults) =
                [startRow + ctz32 bits] := by
              rw [hcons]
              have : m - numResults = 1 := by omega
              rw [this]
              simp
            have hget : ((bitIdx bits).map (fun j => startRow + j))[m -
                numResults - 1]? = some (startRow + ctz32 bits) := by
              rw [hcons]
              have : m - numResults - 1 = 0 := by omega
              rw [this]
              simp
            by_cases ht1 : startRow + ctz32 bits + 1 < C.numRows
            · obtain ⟨iter2, hskip2, hst2, _⟩ := hsk1.1 ht1
              refine ⟨iter2, startRow + ctz32 bits, hget, ?_, ?_⟩
              · rw [hstep, if_pos hm1]
                simp only [hskip2, htake, List.map_cons, List.map_nil, hcr1]
              · exact Or.inl ⟨ht1, hst2⟩
            · obtain ⟨iter2, hskip2, hrow2, _⟩ := hsk1.2 (by omega)
              refine ⟨iter2, startRow + ctz32 bits, hget, ?_, ?_⟩
              · rw [hstep, if_pos hm1]
                simp only [hskip2, htake, List.map_cons, List.map_nil, hcr1]
              · exact Or.inr ⟨by omega, hrow2⟩
          · have hrest : ∀ j ∈ bitIdx (bits &&& (bits - 1)),
                startRow + ctz32 bits ≤ startRow + j ∧
                  startRow + j < C.numRows := by
              intro j hj
              have hjmem : j ∈ bitIdx bits := by
                rw [hcons]
                exact List.mem_cons_of_mem _ hj
              have hlt := (List.pairwise_cons.mp
                (hcons ▸ bitIdx_pairwise bits)).1 j hj
              exact ⟨by omega, (hmem _ hjmem).2⟩
            have hfuel2 : (bitIdx (bits &&& (bits - 1))).length + 1 ≤ fuel := by
              rw [hcons] at hfuel
              simp only [List.length_cons] at hfuel
              omega
            have hquota2 : m ≤ numResults + 1 +
                (bitIdx (bits &&& (bits - 1))).length := by
              rw [hcons] at hquota
              simp only [List.length_cons] at hquota
              omega
            have hihc := (ih (bits &&& (bits - 1)) iter1 (startRow + ctz32 bits)
              (numResults + 1) (out ++ [iter1.currentRow])
              hfuel2 (by omega) hst1 hrest (by omega)).2 hquota2
            obtain ⟨iter', t, hget', heq, hres⟩ := hihc
            refine ⟨iter', t, ?_, ?_, hres⟩
            · rw [hcons]
              simp only [List.map_cons]
              have hidx : m - numResults - 1 = (m - (numResults + 1) - 1) + 1 := by
                omega
              rw [hidx, List.getElem?_cons_succ]
              exact hget'
            · rw [hstep, if_neg hm1, heq, hcons]
              have htk : m - numResults = (m - (numResults + 1)) + 1 := by omega
              rw [htk]
              simp only [List.map_cons, List.take_succ_cons, List.map_cons,
                List.append_assoc, List.singleton_append, hcr1]

theorem land_lt_two_pow (a b w : Nat) (ha : a < 2 ^ w) : a &&& b < 2 ^ w := by
  have h : a &&& b ≤ a := Nat.and_le_left
  omega

/-- Splitting the matches not below `n` at a boundary `M` (with n ≤ M):
those inside the window, then those from `M` on. -/
theorem matchesFrom_split (P : List Nat) (p N n M : Nat) (hnM : n ≤ M) :
    matchesFrom P p N n =
      (matchesFrom P p N n).filter (fun i => decide (i < M)) ++
        matchesFrom P p N M := by
  apply eq_of_sorted_mem
  · exact matchesFrom_pairwise P p N n
  · rw [List.pairwise_append]
    refine ⟨List.Pairwise.sublist (List.filter_sublist _)
      (matchesFrom_pairwise P p N n), matchesFrom_pairwise P p N M, ?_⟩
    intro a ha b hb
    rw [List.mem_filter] at ha
    have hb' := mem_matchesFrom.mp hb
    simp only [decide_eq_true_eq] at ha
    omega
  · intro x
    simp only [List.mem_append, List.mem_filter, mem_matchesFrom,
      decide_eq_true_eq]
    constructor
    · intro h
      by_cases hxM : x < M
      · exact Or.inl ⟨h, hxM⟩
      · exact Or.inr ⟨by omega, h.2.1, h.2.2⟩
    · intro h
      rcases h with ⟨h, _⟩ | h
      · exact h
      · exact ⟨by omega, h.2.1, h.2.2⟩

/-- In a strictly sorted list, dropping past index `k` is filtering by
being greater than the element at `k`. -/
theorem sorted_drop_eq_filter (l : List Nat) (hl : l.Pairwise (· < ·)) :
    ∀ k t, l[k]? = some t →
      l.drop (k + 1) = l.filter (fun x => decide (t < x)) := by
  induction l with
  | nil =>
      intro k t h
      simp at h
  | cons a l ih =>
      intro k t h
      obtain ⟨hall, hl'⟩ := List.pairwise_cons.mp hl
      cases k with
      | zero =>
          rw [List.getElem?_cons_zero] at h
          cases h
          rw [List.drop_succ_cons, List.drop_zero, List.filter_cons]
          rw [if_neg (by simp)]
          symm
          rw [List.filter_eq_self]
          intro x hx
          simp [hall x hx]
      | succ k =>
          rw [List.getElem?_cons_succ] at h
          have htl : t ∈ l := by
            have hkl : k < l.length := by
              by_contra hk
              push_neg at hk
              rw [List.getElem?_eq_none hk] at h
              cases h
            rw [List.getElem?_eq_getElem hkl] at h
            cases h
            exact List.getElem_mem hkl
          have halt : a < t := hall t htl
          rw [List.drop_succ_cons, ih hl' k t h, List.filter_cons]
          rw [if_neg (by simp; omega)]

/-- Resuming just past the quota-filling match `t` (at index `k` of the
remaining matches) leaves exactly the matches after index `k`. -/
theorem matchesFrom_drop (P : List Nat) (p N r k t : Nat)
    (hget : (matchesFrom P p N r)[k]? = some t) :
    matchesFrom P p N (t + 1) = (matchesFrom P p N r).drop (k + 1) := by
  have hkl : k < (matchesFrom P p N r).length := by
    by_contra hk
    push_neg at hk
    rw [List.getElem?_eq_none hk] at hget
    cases hget
  have htR : t ∈ matchesFrom P p N r := by
    rw [List.getElem?_eq_getElem hkl] at hget
    cases hget
    exact List.getElem_mem hkl
  have hrt : r ≤ t := (mem_matchesFrom.mp htR).1
  rw [sorted_drop_eq_filter _ (matchesFrom_pairwise P p N r) k t hget]
  apply eq_of_sorted_mem
  · exact matchesFrom_pairwise P p N (t + 1)
  · exact List.Pairwise.sublist (List.filter_sublist _)
      (matchesFrom_pairwise P p N r)
  · intro x
    rw [mem_matchesFrom, List.mem_filter, mem_matchesFrom]
    simp only [decide_eq_true_eq]
    constructor
    · intro h
      exact ⟨⟨by omega, h.2.1, h.2.2⟩, by omega⟩
    · intro h
      exact ⟨by omega, h.1.2.1, h.1.2.2⟩

theorem bitIdx_length_le (b : Nat) : (bitIdx b).length ≤ 32 := by
  rw [bitIdx]
  calc ((List.range 32).filter (fun j => b.testBit j)).length
      ≤ (List.range 32).length := List.length_filter_le _ _
    _ = 32 := List.length_range 32

theorem getLastD_mem_or (l : List Nat) : ∀ d, l.getLastD d = d ∨ l.getLastD d ∈ l := by
  induction l with
  | nil =>
      intro d
      exact Or.inl rfl
  | cons a l ih =>
      intro d
      rw [List.getLastD_cons]
      rcases ih a with h | h
      · refine Or.inr ?_
        rw [h]
        exact List.mem_cons_self a l
      · exact Or.inr (List.mem_cons_of_mem a h)

/-- The batch loop: starting anywhere inside a batch with the matching
first-batch mask, it emits the matches from the iterator position on,
bounded by the quota, and always exits by returning (atEnd when the
matches run out first, the maxRows path when the quota fills first). -/
theorem lprFor_spec (C : IterContainer) (P : List Nat) (p m runEnd : Nat)
    (hwf : WFIter C) (hre : C.numRows ≤ runEnd) :
    ∀ fuel startRow n iter numResults out,
      (C.numRows - startRow) / 32 + 1 ≤ fuel →
      startRow ≤ n →
      n - startRow < 32 →
      n < C.numRows →
      StateAt C n iter →
      numResults < m →
      (numResults + (matchesFrom P p C.numRows n).length < m →
        ∃ iter', lprFor C P p m runEnd fuel startRow
            (not32 (lowMask (n - startRow))) iter numResults out =
          some (iter', numResults + (matchesFrom P p C.numRows n).length,
            out ++ (matchesFrom P p C.numRows n).map
              (fun i => slotAddr C.runs C.fixedRowSize i), true) ∧
          iter'.rowNumber = C.numRows) ∧
      (m ≤ numResults + (matchesFrom P p C.numRows n).length →
        ∃ iter' t,
          (matchesFrom P p C.numRows n)[m - numResults - 1]? = some t ∧
          lprFor C P p m runEnd fuel startRow
            (not32 (lowMask (n - startRow))) iter numResults out =
            some (iter', m, out ++ ((matchesFrom P p C.numRows n).take
              (m - numResults)).map
              (fun i => slotAddr C.runs C.fixedRowSize i), true) ∧
          ResumeAt C iter' (t + 1)) := by
  intro fuel
  induction fuel with
  | zero =>
      intro startRow n iter numResults out hfuel
      omega
  | succ fuel ih =>
      intro startRow n iter numResults out hfuel hsn hn32 hnN hst hnr
      have hkb : kBatch = 32 := rfl
      have hguard : ¬(runEnd ≤ startRow) := by omega
      have hW := batch_window P p C.numRows n startRow hsn hn32
      have hbm32 : batchMask P p startRow < 2 ^ 32 :=
        maskOf_lt (fun j => decide (pByte P (startRow + j) = p)) 32
      by_cases hend : C.numRows ≤ startRow + kBatch
      · -- atEnd batch: the masked window is all the remaining matches
        rw [if_pos hend] at hW
        have hend32 : C.numRows ≤ startRow + 32 := by
          rw [hkb] at hend
          exact hend
        have hWR : (bitIdx ((batchMask P p startRow &&&
            not32 (lowMask (n - startRow))) &&&
              lowMask (C.numRows - startRow))).map (fun j => startRow + j) =
            matchesFrom P p C.numRows n := by
          rw [hW]
          apply List.filter_eq_self.mpr
          intro x hx
          have hx' := mem_matchesFrom.mp hx
          simp only [decide_eq_true_eq]
          omega
        have hlen : (bitIdx ((batchMask P p startRow &&&
            not32 (lowMask (n - startRow))) &&&
              lowMask (C.numRows - startRow))).length =
            (matchesFrom P p C.numRows n).length := by
          rw [← hWR, List.length_map]
        have hmemW : ∀ j ∈ bitIdx ((batchMask P p startRow &&&
            not32 (lowMask (n - startRow))) &&&
              lowMask (C.numRows - startRow)),
            n ≤ startRow + j ∧ startRow + j < C.numRows := by
          intro j hj
          have hx : startRow + j ∈ matchesFrom P p C.numRows n := by
            rw [← hWR]
            exact List.mem_map.mpr ⟨j, hj, rfl⟩
          have hx' := mem_matchesFrom.mp hx
          exact ⟨hx'.1, hx'.2.1⟩
        have h33 : (bitIdx ((batchMask P p startRow &&&
            not32 (lowMask (n - startRow))) &&&
              lowMask (C.numRows - startRow))).length + 1 ≤ 33 := by
          have := bitIdx_length_le ((batchMask P p startRow &&&
            not32 (lowMask (n - startRow))) &&&
              lowMask (C.numRows - startRow))
          omega
        have hb32 : (batchMask P p startRow &&&
            not32 (lowMask (n - startRow))) &&&
              lowMask (C.numRows - startRow) < 2 ^ 32 :=
          land_lt_two_pow _ _ _ (land_lt_two_pow _ _ _ hbm32)
        have hinner := lprInner_spec C hwf m startRow 33
          ((batchMask P p startRow &&& not32 (lowMask (n - startRow))) &&&
            lowMask (C.numRows - startRow)) iter n numResults out
          h33 hb32 hst hmemW hnr
        constructor
        · intro hroom
          obtain ⟨iter1, hinnerEq, hst1⟩ := hinner.1 (by rw [hlen]; exact hroom)
          refine ⟨{ iter1 with rowNumber := C.numRows }, ?_, rfl⟩
          simp only [lprFor]
          rw [if_neg hguard, if_pos hend]
          simp only [hinnerEq]
          rw [if_pos hend, hWR, hlen]
        · intro hquota
          obtain ⟨iter2, t, hget, hinnerEq, hres⟩ :=
            hinner.2 (by rw [hlen]; exact hquota)
          rw [hWR] at hget
          refine ⟨iter2, t, hget, ?_, hres⟩
          simp only [lprFor]
          rw [if_neg hguard, if_pos hend]
          simp only [hinnerEq]
          rw [hWR]
      · -- mid-arena batch: window then recurse on the next batch
        rw [if_neg hend] at hW
        have hend32 : startRow + 32 < C.numRows := by
          rw [hkb] at hend
          omega
        have hmemW : ∀ j ∈ bitIdx (batchMask P p startRow &&&
            not32 (lowMask (n - startRow))),
            n ≤ startRow + j ∧ startRow + j < C.numRows := by
          intro j hj
          have hx : startRow + j ∈ (matchesFrom P p C.numRows n).filter
              (fun i => decide (i < startRow + 32)) := by
            rw [← hW]
            exact List.mem_map.mpr ⟨j, hj, rfl⟩
          rw [List.mem_filter, mem_matchesFrom] at hx
          exact ⟨hx.1.1, hx.1.2.1⟩
        have h33 : (bitIdx (batchMask P p startRow &&&
            not32 (lowMask (n - startRow)))).length + 1 ≤ 33 := by
          have := bitIdx_length_le (batchMask P p startRow &&&
            not32 (lowMask (n - startRow)))
          omega
        have hb32 : batchMask P p startRow &&&
            not32 (lowMask (n - startRow)) < 2 ^ 32 :=
          land_lt_two_pow _ _ _ hbm32
        have hinner := lprInner_spec C hwf m startRow 33
          (batchMask P p startRow &&& not32 (lowMask (n - startRow)))
          iter n numResults out h33 hb32 hst hmemW hnr
        have hsplit := matchesFrom_split P p C.numRows n (startRow + 32)
          (by omega)
        rw [← hW] at hsplit
        have hWlen : ((bitIdx (batchMask P p startRow &&&
            not32 (lowMask (n - startRow)))).map
              (fun j => startRow + j)).length =
            (bitIdx (batchMask P p startRow &&&
              not32 (lowMask (n - startRow)))).length := List.length_map _ _
        have hlenR : (matchesFrom P p C.numRows n).length =
            (bitIdx (batchMask P p startRow &&&
              not32 (lowMask (n - startRow)))).length +
            (matchesFrom P p C.numRows (startRow + 32)).length := by
          rw [hsplit, List.length_append, hWlen]
        by_cases hroomW : numResults + (bitIdx (batchMask P p startRow &&&
            not32 (lowMask (n - startRow)))).length < m
        · -- the window leaves the quota unfilled: align and recurse
          obtain ⟨iter1, hinnerEq, hst1⟩ := hinner.1 hroomW
          have hrow1 := hst1.1
          have hn1lt : ((bitIdx (batchMask P p startRow &&&
              not32 (lowMask (n - startRow)))).map
                (fun j => startRow + j)).getLastD n < startRow + 32 := by
            rcases getLastD_mem_or ((bitIdx (batchMask P p startRow &&&
              not32 (lowMask (n - startRow)))).map (fun j => startRow + j)) n
              with h | h
            · rw [h]
              omega
            · have h' : ((bitIdx (batchMask P p startRow &&&
                  not32 (lowMask (n - startRow)))).map
                    (fun j => startRow + j)).getLastD n ∈
                  (matchesFrom P p C.numRows n).filter
                    (fun i => decide (i < startRow + 32)) := by
                rw [← hW]
                exact h
              rw [List.mem_filter] at h'
              have := h'.2
              simp only [decide_eq_true_eq] at this
              exact this
          have hkb32 : startRow + kBatch = startRow + 32 := by rw [hkb]
          have hsk := (skip_stateAt C hwf iter1
            (((bitIdx (batchMask P p startRow &&&
              not32 (lowMask (n - startRow)))).map
                (fun j => startRow + j)).getLastD n)
            (startRow + kBatch - ((bitIdx (batchMask P p startRow &&&
              not32 (lowMask (n - startRow)))).map
                (fun j => startRow + j)).getLastD n) hst1).1
          have harr : (((bitIdx (batchMask P p startRow &&&
              not32 (lowMask (n - startRow)))).map
                (fun j => startRow + j)).getLastD n) +
              (startRow + kBatch - ((bitIdx (batchMask P p startRow &&&
                not32 (lowMask (n - startRow)))).map
                  (fun j => startRow + j)).getLastD n) = startRow + kBatch := by
            omega
          rw [harr] at hsk
          obtain ⟨iter2, hskip2, hst2, _⟩ := hsk (by omega)
          have hred : lprFor C P p m runEnd (fuel + 1) startRow
              (not32 (lowMask (n - startRow))) iter numResults out =
              lprFor C P p m runEnd fuel (startRow + kBatch) (lowMask 32)
                iter2 (numResults + (bitIdx (batchMask P p startRow &&&
                  not32 (lowMask (n - startRow)))).length)
                (out ++ ((bitIdx (batchMask P p startRow &&&
                  not32 (lowMask (n - startRow)))).map
                    (fun j => startRow + j)).map
                  (fun i => slotAddr C.runs C.fixedRowSize i)) := by
            simp only [lprFor]
            rw [if_neg hguard, if_neg hend]
            simp only [hinnerEq]
            rw [if_neg hend, hrow1, if_pos (by omega), hskip2]
          rw [hkb32] at hred
          have hihspec := ih (startRow + 32) (startRow + 32) iter2
            (numResults + (bitIdx (batchMask P p startRow &&&
              not32 (lowMask (n - startRow)))).length)
            (out ++ ((bitIdx (batchMask P p startRow &&&
              not32 (lowMask (n - startRow)))).map
                (fun j => startRow + j)).map
              (fun i => slotAddr C.runs C.fixedRowSize i))
            (by omega) (Nat.le_refl _) (by omega) hend32
            (by rw [← hkb32]; exact hst2) hroomW
          rw [Nat.sub_self, not32_lowMask_zero] at hihspec
          constructor
          · intro hroom
            obtain ⟨iter', heqF, hrowF⟩ := hihspec.1 (by omega)
            refine ⟨iter', ?_, hrowF⟩
            rw [hred, heqF]
            have hA : numResults + (bitIdx (batchMask P p startRow &&&
                not32 (lowMask (n - startRow)))).length +
                (matchesFrom P p C.numRows (startRow + 32)).length =
                numResults + (matchesFrom P p C.numRows n).length := by
              omega
            have hB : out ++ (matchesFrom P p C.numRows n).map
                (fun i => slotAddr C.runs C.fixedRowSize i) =
                (out ++ ((bitIdx (batchMask P p startRow &&&
                  not32 (lowMask (n - startRow)))).map
                    (fun j => startRow + j)).map
                  (fun i => slotAddr C.runs C.fixedRowSize i)) ++
                (matchesFrom P p C.numRows (startRow + 32)).map
                  (fun i => slotAddr C.runs C.fixedRowSize i) := by
              rw [hsplit, List.map_append, ← List.append_assoc]
            rw [hA, hB]
          · intro hquota
            obtain ⟨iter', t, hget', heqF, hres⟩ := hihspec.2 (by omega)
            refine ⟨iter', t, ?_, ?_, hres⟩
            · rw [hsplit, List.getElem?_append_right (by omega)]
              have hidx : m - numResults - 1 -
                  ((bitIdx (batchMask P p startRow &&&
                    not32 (lowMask (n - startRow)))).map
                      (fun j => startRow + j)).length =
                  m - (numResults + (bitIdx (batchMask P p startRow &&&
                    not32 (lowMask (n - startRow)))).length) - 1 := by
                rw [hWlen]
                omega
              rw [hidx]
              exact hget'
            · rw [hred, heqF]
              have hle : ((bitIdx (batchMask P p startRow &&&
                  not32 (lowMask (n - startRow)))).map
                    (fun j => startRow + j)).length ≤ m - numResults := by
                rw [hWlen]
                omega
              have hC : (matchesFrom P p C.numRows n).take (m - numResults) =
                  ((bitIdx (batchMask P p startRow &&&
                    not32 (lowMask (n - startRow)))).map
                      (fun j => startRow + j)) ++
                  (matchesFrom P p C.numRows (startRow + 32)).take
                    (m - (numResults + (bitIdx (batchMask P p startRow &&&
                      not32 (lowMask (n - startRow)))).length)) := by
                rw [hsplit, List.take_append_eq_append_take,
                  List.take_of_length_le hle]
                have hidx2 : m - numResults -
                    ((bitIdx (batchMask P p startRow &&&
                      not32 (lowMask (n - startRow)))).map
                        (fun j => startRow + j)).length =
                    m - (numResults + (bitIdx (batchMask P p startRow &&&
                      not32 (lowMask (n - startRow)))).length) := by
                  rw [hWlen]
                  omega
                rw [hidx2]
              rw [hC, List.map_append, ← List.append_assoc]
        · -- the quota fills inside this window
          push_neg at hroomW
          obtain ⟨iter2, t, hget, hinnerEq, hres⟩ := hinner.2 hroomW
          have hWlen' : m - numResults - 1 <
              ((bitIdx (batchMask P p startRow &&&
                not32 (lowMask (n - startRow)))).map
                  (fun j => startRow + j)).length := by
            rw [hWlen]
            omega
          constructor
          · intro hroom
            omega
          · intro hquota
            refine ⟨iter2, t, ?_, ?_, hres⟩
            · rw [hsplit, List.getElem?_append, if_pos hWlen']
              exact hget
            · simp only [lprFor]
              rw [if_neg hguard, if_neg hend]
              simp only [hinnerEq]
              have hle : m - numResults ≤
                  ((bitIdx (batchMask P p startRow &&&
                    not32 (lowMask (n - startRow)))).map
                      (fun j => startRow + j)).length := by
                rw [hWlen]
                omega
              have hC : (matchesFrom P p C.numRows n).take (m - numResults) =
                  ((bitIdx (batchMask P p startRow &&&
                    not32 (lowMask (n - startRow)))).map
                      (fun j => startRow + j)).take (m - numResults) := by
                rw [hsplit, List.take_append_eq_append_take,
                  Nat.sub_eq_zero_of_le hle, List.take_zero, List.append_nil]
              rw [hC]

theorem matchesFrom_ge (P : List Nat) (p N r : Nat) (h : N ≤ r) :
    matchesFrom P p N r = [] := by
  rw [matchesFrom]
  apply List.filter_eq_nil_iff.mpr
  intro x hx
  rw [List.mem_range] at hx
  simp only [Bool.and_eq_true, decide_eq_true_eq, not_and]
  intro hrx
  omega

theorem matchesFrom_zero (P : List Nat) (p N : Nat) :
    matchesFrom P p N 0 =
      (List.range N).filter (fun i => decide (pByte P i = p)) := by
  rw [matchesFrom]
  apply List.filter_congr
  intro x _
  simp

/-- One call on a live cursor at row `n`: if the matches from `n` fall
short of maxRows they are all emitted and the iterator ends terminal
(rowNumber = numRows); otherwise exactly maxRows of them are emitted and
the iterator resumes just past the last one. -/
theorem lpr_call (C : IterContainer) (P : List Nat) (p m : Nat)
    (hwf : WFIter C) (hsz : P.length = C.numRows) (hm : 0 < m)
    (iter : RCIterator) (n : Nat) (hst : StateAt C n iter)
    (hn : n < C.numRows) :
    ((matchesFrom P p C.numRows n).length < m →
      ∃ iter', listPartitionRows C P p m iter =
          some (iter', (matchesFrom P p C.numRows n).map
            (fun i => slotAddr C.runs C.fixedRowSize i)) ∧
        iter'.rowNumber = C.numRows) ∧
    (m ≤ (matchesFrom P p C.numRows n).length →
      ∃ iter' t, (matchesFrom P p C.numRows n)[m - 1]? = some t ∧
        listPartitionRows C P p m iter =
          some (iter', ((matchesFrom P p C.numRows n).take m).map
            (fun i => slotAddr C.runs C.fixedRowSize i)) ∧
        ResumeAt C iter' (t + 1)) := by
  have hkb : kBatch = 32 := rfl
  have h0 : ¬(C.numRows = 0) := by omega
  have hre : C.numRows ≤ roundUp C.numRows kBatch := by
    unfold roundUp
    rw [hkb]
    omega
  have hrn := hst.1
  have hfe : (C.numRows - n / kBatch * kBatch) / 32 + 1 ≤
      roundUp C.numRows kBatch / kBatch + 1 := by
    unfold roundUp
    rw [hkb]
    omega
  have hspec := lprFor_spec C P p m (roundUp C.numRows kBatch) hwf hre
    (roundUp C.numRows kBatch / kBatch + 1) (n / kBatch * kBatch) n iter 0 []
    hfe (by rw [hkb]; omega) (by rw [hkb]; omega) hn hst hm
  simp only [Nat.zero_add, Nat.sub_zero, List.nil_append] at hspec
  constructor
  · intro hroom
    obtain ⟨iter', heq, hrow⟩ := hspec.1 hroom
    refine ⟨iter', ?_, hrow⟩
    unfold listPartitionRows
    rw [if_neg (by omega), if_neg h0]
    simp only [lprWhile]
    rw [if_pos ⟨hm, by rw [hrn]; exact hn⟩, hrn]
    simp only [heq]
    rw [if_pos trivial]
  · intro hquota
    obtain ⟨iter', t, hget, heq, hres⟩ := hspec.2 hquota
    refine ⟨iter', t, hget, ?_, hres⟩
    unfold listPartitionRows
    rw [if_neg (by omega), if_neg h0]
    simp only [lprWhile]
    rw [if_pos ⟨hm, by rw [hrn]; exact hn⟩, hrn]
    simp only [heq]
    rw [if_pos trivial]

/-- A call on a terminal iterator emits nothing and leaves it unchanged. -/
theorem lpr_call_terminal (C : IterContainer) (P : List Nat) (p m : Nat)
    (iter : RCIterator) (hsz : P.length = C.numRows)
    (hterm : iter.rowNumber = C.numRows) :
    listPartitionRows C P p m iter = some (iter, []) := by
  unfold listPartitionRows
  rw [if_neg (by omega)]
  by_cases h0 : C.numRows = 0
  · rw [if_pos h0]
  · rw [if_neg h0]
    simp only [lprWhile]
    rw [if_neg (by intro h; rw [hterm] at h; omega)]

/-- A call with maxRows = 0 emits nothing and leaves the iterator
unchanged. -/
theorem lpr_call_zero (C : IterContainer) (P : List Nat) (p : Nat)
    (iter : RCIterator) (hsz : P.length = C.numRows) :
    listPartitionRows C P p 0 iter = some (iter, []) := by
  unfold listPartitionRows
  rw [if_neg (by omega)]
  by_cases h0 : C.numRows = 0
  · rw [if_pos h0]
  · rw [if_neg h0]
    simp only [lprWhile]
    rw [if_neg (by intro h; omega)]

/-- Chaining calls: from a resumption state at row `r`, if the maxRows
values sum to at least the number of remaining matches, the concatenated
outputs are exactly the remaining matches, in order. -/
theorem runCalls_spec (C : IterContainer) (P : List Nat) (p : Nat)
    (hwf : WFIter C) (hsz : P.length = C.numRows) :
    ∀ ms iter r, ResumeAt C iter r →
      (matchesFrom P p C.numRows r).length ≤ ms.sum →
      ∃ iter', runCalls C P p ms iter =
        some (iter', (matchesFrom P p C.numRows r).map
          (fun i => slotAddr C.runs C.fixedRowSize i)) := by
  intro ms
  induction ms with
  | nil =>
      intro iter r hres hsum
      simp only [List.sum_nil, Nat.le_zero] at hsum
      have hnil : matchesFrom P p C.numRows r = [] :=
        List.length_eq_zero.mp hsum
      rw [hnil]
      exact ⟨iter, rfl⟩
  | cons m ms ih =>
      intro iter r hres hsum
      simp only [List.sum_cons] at hsum
      rcases hres with ⟨hr, hst⟩ | ⟨hr, hterm⟩
      · by_cases hm0 : m = 0
        · subst hm0
          have hcall := lpr_call_zero C P p iter hsz
          obtain ⟨iter', hrec⟩ := ih iter r (Or.inl ⟨hr, hst⟩) (by omega)
          simp only [runCalls, hcall, hrec]
          exact ⟨iter', by simp⟩
        · have hm : 0 < m := by omega
          have hcall := lpr_call C P p m hwf hsz hm iter r hst hr
          by_cases hroom : (matchesFrom P p C.numRows r).length < m
          · obtain ⟨iter1, heq, hrow1⟩ := hcall.1 hroom
            have hnil : matchesFrom P p C.numRows C.numRows = [] :=
              matchesFrom_ge P p C.numRows C.numRows (Nat.le_refl _)
            obtain ⟨iter', hrec⟩ := ih iter1 C.numRows
              (Or.inr ⟨Nat.le_refl _, hrow1⟩) (by rw [hnil]; simp)
            rw [hnil] at hrec
            simp only [runCalls, heq, hrec]
            exact ⟨iter', by simp⟩
          · push_neg at hroom
            obtain ⟨iter1, t, hget, heq, hres1⟩ := hcall.2 hroom
            have hm1 : m - 1 + 1 = m := by omega
            have hdrop := matchesFrom_drop P p C.numRows r (m - 1) t hget
            rw [hm1] at hdrop
            obtain ⟨iter', hrec⟩ := ih iter1 (t + 1) hres1
              (by rw [hdrop, List.length_drop]; omega)
            rw [hdrop] at hrec
            simp only [runCalls, heq, hrec]
            refine ⟨iter', ?_⟩
            rw [← List.map_append, List.take_append_drop]
      · have hnil : matchesFrom P p C.numRows r = [] :=
          matchesFrom_ge P p C.numRows r hr
        have hcall := lpr_call_terminal C P p m iter hsz hterm
        obtain ⟨iter', hrec⟩ := ih iter r (Or.inr ⟨hr, hterm⟩)
          (by rw [hnil]; simp)
        simp only [runCalls, hcall, hrec]
        exact ⟨iter', by simp⟩

theorem slotAddrAux_ge (s : Nat) : ∀ runs ri k ai rb,
    slotAddrAux s runs ri k = some (ai, rb) → ri ≤ ai := by
  intro runs
  induction runs with
  | nil =>
      intro ri k ai rb h
      simp [slotAddrAux] at h
  | cons sz rest ih =>
      intro ri k ai rb h
      simp only [slotAddrAux] at h
      by_cases hk : k < sz / s
      · rw [if_pos hk] at h
        simp only [Option.some.injEq, Prod.mk.injEq] at h
        omega
      · rw [if_neg hk] at h
        have := ih (ri + 1) (k - sz / s) ai rb h
        omega

theorem slotAddrAux_inj (s : Nat) (hs : 0 < s) : ∀ runs ri a b ai rb,
    slotAddrAux s runs ri a = some (ai, rb) →
    slotAddrAux s runs ri b = some (ai, rb) → a = b := by
  intro runs
  induction runs with
  | nil =>
      intro ri a b ai rb ha
      simp [slotAddrAux] at ha
  | cons sz rest ih =>
      intro ri a b ai rb ha hb
      simp only [slotAddrAux] at ha hb
      by_cases haa : a < sz / s <;> by_cases hbb : b < sz / s
      · rw [if_pos haa] at ha
        rw [if_pos hbb] at hb
        simp only [Option.some.injEq, Prod.mk.injEq] at ha hb
        have hab : a * s = b * s := by omega
        exact Nat.eq_of_mul_eq_mul_right hs hab
      · rw [if_pos haa] at ha
        rw [if_neg hbb] at hb
        simp only [Option.some.injEq, Prod.mk.injEq] at ha
        have := slotAddrAux_ge s rest (ri + 1) (b - sz / s) ai rb hb
        omega
      · rw [if_neg haa] at ha
        rw [if_pos hbb] at hb
        simp only [Option.some.injEq, Prod.mk.injEq] at hb
        have := slotAddrAux_ge s rest (ri + 1) (a - sz / s) ai rb ha
        omega
      · rw [if_neg haa] at ha
        rw [if_neg hbb] at hb
        have := ih (ri + 1) (a - sz / s) (b - sz / s) ai rb ha hb
        omega

theorem slotAddrAux_total (s : Nat) : ∀ runs ri k, k < totalCap runs s →
    ∃ ai rb, slotAddrAux s runs ri k = some (ai, rb) := by
  intro runs
  induction runs with
  | nil =>
      intro ri k h
      simp [totalCap] at h
  | cons sz rest ih =>
      intro ri k h
      simp only [slotAddrAux]
      by_cases hk : k < sz / s
      · rw [if_pos hk]
        exact ⟨ri, k * s, rfl⟩
      · rw [if_neg hk]
        apply ih
        have hcap : totalCap (sz :: rest) s = sz / s + totalCap rest s := by
          simp [totalCap]
        omega

/-- Distinct in-range slots have distinct addresses. -/
theorem slotAddr_inj (runs : List Nat) (s a b : Nat) (hs : 0 < s)
    (ha : a < totalCap runs s) (heq : slotAddr runs s a = slotAddr runs s b) :
    a = b := by
  obtain ⟨ai, rb, hsa⟩ := slotAddrAux_total s runs 0 a ha
  have hsb : slotAddrAux s runs 0 b = some (ai, rb) := by
    have hsb' : slotAddr runs s b = some (ai, rb) := by
      rw [← heq]
      exact hsa
    exact hsb'
  exact slotAddrAux_inj s hs runs 0 a b ai rb hsa hsb

/-- C2: On a well-formed container with a partition table of numRows
bytes, repeated calls to listPartitionRows with the same iterator (one
call per entry of `ms`, which are the maxRows arguments) return — once
the maxRows values sum to at least the match count — exactly the row
pointers of the set of rows whose partition byte is `p`, in ascending row
index; the index list is strictly increasing and the pointers are
pairwise distinct, regardless of the resumption boundaries `ms`. -/
theorem listPartitionRows_exhaustive (C : IterContainer) (P : List Nat)
    (p : Nat) (hwf : WFIter C) (hsz : P.length = C.numRows) (ms : List Nat)
    (hsum : ((List.range C.numRows).filter
      (fun i => decide (pByte P i = p))).length ≤ ms.sum) :
    ∃ iterF, runCalls C P p ms RCIterator.init =
        some (iterF, ((List.range C.numRows).filter
          (fun i => decide (pByte P i = p))).map
          (fun i => slotAddr C.runs C.fixedRowSize i)) ∧
      ((List.range C.numRows).filter
        (fun i => decide (pByte P i = p))).Pairwise (· < ·) ∧
      (((List.range C.numRows).filter
        (fun i => decide (pByte P i = p))).map
        (fun i => slotAddr C.runs C.fixedRowSize i)).Pairwise (· ≠ ·) := by
  have hpair : ((List.range C.numRows).filter
      (fun i => decide (pByte P i = p))).Pairwise (· < ·) :=
    List.Pairwise.sublist (List.filter_sublist _)
      (List.pairwise_lt_range C.numRows)
  have hres0 : ResumeAt C RCIterator.init 0 := by
    by_cases h0 : C.numRows = 0
    · refine Or.inr ⟨by omega, ?_⟩
      rw [h0]
      rfl
    · exact Or.inl ⟨by omega, StateAt_init C hwf⟩
  obtain ⟨iterF, hrun⟩ := runCalls_spec C P p hwf hsz ms RCIterator.init 0
    hres0 (by rw [matchesFrom_zero]; exact hsum)
  rw [matchesFrom_zero] at hrun
  refine ⟨iterF, hrun, hpair, ?_⟩
  rw [List.pairwise_map]
  refine List.Pairwise.imp_of_mem ?_ hpair
  intro a b hamem hbmem hab heq
  have haN : a < C.numRows := by
    have := (List.mem_filter.mp hamem).1
    rw [List.mem_range] at this
    exact this
  have hacap : a < totalCap C.runs C.fixedRowSize := by
    have := hwf.2.2.2.2
    omega
  have := slotAddr_inj C.runs C.fixedRowSize a b hwf.1 hacap heq
  omega

/-- The spec's running example: 100 rows in four ranges (32 + 32 + 32 + 8
slots of 8 bytes), partition byte i % 4. -/
def C2w : IterContainer :=
  { runs := [256, 256, 256, 64], fixedRowSize := 8, numRows := 100,
    numRowsWithNormalizedKey := 0, originalNormalizedKeySize := 0,
    liveMask := List.replicate 100 true }

def P2w : List Nat := (List.range 100).map (fun i => i % 4)

theorem listPartitionRows_exhaustive_witness :
    ∃ iterF, runCalls C2w P2w 2 [10, 10, 5] RCIterator.init =
        some (iterF, ((List.range C2w.numRows).filter
          (fun i => decide (pByte P2w i = 2))).map
          (fun i => slotAddr C2w.runs C2w.fixedRowSize i)) ∧
      ((List.range C2w.numRows).filter
        (fun i => decide (pByte P2w i = 2))).Pairwise (· < ·) ∧
      (((List.range C2w.numRows).filter
        (fun i => decide (pByte P2w i = 2))).map
        (fun i => slotAddr C2w.runs C2w.fixedRowSize i)).Pairwise (· ≠ ·) :=
  listPartitionRows_exhaustive C2w P2w 2 (by unfold WFIter; decide)
    (by decide) [10, 10, 5] (by decide)

theorem skip_zero_init_spec_witness :
    (∃ iter', skip C4w RCIterator.init 2 = some iter' ∧
      iter'.rowNumber = 2 ∧
      iter'.currentRow = slotAddr C4w.runs C4w.fixedRowSize 2) ∧
    (∃ iter', skip C4w RCIterator.init 9 = some iter' ∧
      iter'.rowNumber = C4w.numRows ∧ iter'.currentRow = none) :=
  ⟨(skip_zero_init_spec C4w (by unfold WFIter; decide) 2).1 (by decide),
   (skip_zero_init_spec C4w (by unfold WFIter; decide) 9).2 (by decide)⟩

end Velox
